import Mathlib

/-!
Verification of the Charj compiler front end (lexer, parser, parse tree,
diagnostics).  The repository's `src/parser/src/lib.rs` declares the modules
`error`, `lexer`, `location`, `parse_tree`, `parser` and `token`, but their
sources are not part of the tree, so the definitions below are modelled from
the specification of the front end.
-/

namespace Charj

/-- Modelled from the spec: the `location` module declared in
`src/parser/src/lib.rs` is missing from the sources.  A source span is a pair
of offsets (start, stop) into the original buffer, immutable once created. -/
structure Span where
  start : Nat
  stop : Nat
deriving DecidableEq, Repr

/-- Modelled from the spec: severity of a diagnostic; currently always
`error`, an extensibility point for future warnings. -/
inductive Severity where
  | error
deriving DecidableEq, Repr

/-- Modelled from the spec: the `error` module declared in
`src/parser/src/lib.rs` is missing from the sources.  A diagnostic is a
(span, severity, message) triple. -/
structure Diagnostic where
  span : Span
  severity : Severity
  message : String
deriving DecidableEq, Repr

/-- Modelled from the spec: the `token` module declared in
`src/parser/src/lib.rs` is missing from the sources.  The closed set of
lexical categories. -/
inductive Token where
  | Identifier (text : String)
  | IntegerLiteral (value : Nat)
  | StringLiteral (text : String)
  | Keyword (kind : String)
  | Operator (kind : String)
  | Punctuation (kind : String)
  | EndOfInput
deriving DecidableEq, Repr

/-- A value paired with its source span (the spec's `Located<Token>`). -/
structure Located (α : Type) where
  node : α
  span : Span
deriving DecidableEq, Repr

/-! ## Lexer

Modelled from the spec: the `lexer` module declared in
`src/parser/src/lib.rs` is missing from the sources.  The lexer consumes the
raw buffer and produces located tokens, discarding whitespace and comments,
emitting an `unexpected character` diagnostic (spanning the one offending
character, which is skipped) on unrecognized input, and a single diagnostic
spanning from the opening position to end of input for unterminated string
or comment literals.  The token stream always ends with an explicit
end-of-input token. -/

/-- The fixed, compile-time-known keyword set used to reclassify
identifiers. -/
def keywords : List String := ["let", "if", "else", "while", "return"]

def isWhitespaceChar (c : Char) : Bool :=
  c = ' ' || c = '\t' || c = '\n' || c = '\r'

def isIdentStart (c : Char) : Bool := c.isAlpha || c = '_'

def isIdentChar (c : Char) : Bool := c.isAlphanum || c = '_'

def isSimpleOp (c : Char) : Bool := c = '+' || c = '-' || c = '*' || c = '='

def isPunctChar (c : Char) : Bool := c = '(' || c = ')' || c = ';'

/-- Maximal-munch helper: split a character list into the longest satisfying
run and the remainder. -/
def munch (p : Char → Bool) : List Char → List Char × List Char
  | [] => ([], [])
  | c :: cs =>
    if p c then
      let r := munch p cs
      (c :: r.1, r.2)
    else ([], c :: cs)

theorem munch_snd_length_le (p : Char → Bool) (l : List Char) :
    (munch p l).2.length ≤ l.length := by
  induction l with
  | nil => simp [munch]
  | cons c cs ih =>
    simp only [munch]
    split
    · simpa using Nat.le_succ_of_le ih
    · simp

theorem munch_length (p : Char → Bool) (l : List Char) :
    (munch p l).1.length + (munch p l).2.length = l.length := by
  induction l with
  | nil => simp [munch]
  | cons c cs ih =>
    simp only [munch]
    split
    · simpa [Nat.succ_add] using ih
    · simp

/-- Decimal value of a digit run. -/
def digitsToNat (l : List Char) : Nat :=
  l.foldl (fun acc c => acc * 10 + (c.toNat - 48)) 0

/-- Scan a string-literal body for its closing quote, returning the content
and the remainder after the quote, or `none` when the literal is
unterminated. -/
def scanString : List Char → Option (List Char × List Char)
  | [] => none
  | c :: cs =>
    if c = '\"' then some ([], cs)
    else (scanString cs).map (fun r => (c :: r.1, r.2))

theorem scanString_length {l : List Char} {r : List Char × List Char}
    (h : scanString l = some r) : r.1.length + 1 + r.2.length = l.length := by
  induction l generalizing r with
  | nil => simp [scanString] at h
  | cons c cs ih =>
    simp only [scanString] at h
    split at h
    · cases h; simp; omega
    · cases hr : scanString cs with
      | none => simp [hr] at h
      | some r2 =>
        simp [hr] at h
        cases h
        have := ih hr
        simp only [List.length_cons]
        omega

/-- Scan a block-comment body for the closing `*` `/` pair, returning the
number of characters consumed (including the closer) and the remainder. -/
def scanComment : List Char → Option (Nat × List Char)
  | [] => none
  | [_] => none
  | c :: d :: cs =>
    if c = '*' && d = '/' then some (2, cs)
    else (scanComment (d :: cs)).map (fun r => (r.1 + 1, r.2))

theorem scanComment_length {l : List Char} {r : Nat × List Char}
    (h : scanComment l = some r) : r.1 + r.2.length = l.length := by
  induction l generalizing r with
  | nil => simp [scanComment] at h
  | cons c cs ih =>
    cases cs with
    | nil => simp [scanComment] at h
    | cons d ds =>
      simp only [scanComment] at h
      split at h
      · cases h; simp; omega
      · cases hr : scanComment (d :: ds) with
        | none => simp [hr] at h
        | some r2 =>
          simp [hr] at h
          cases h
          have := ih hr
          simp only [List.length_cons] at this ⊢
          omega

/-- One event of a lexing pass: an emitted token, a discarded
whitespace/comment region, or a diagnostic. -/
inductive LexItem where
  | tok (t : Token) (span : Span)
  | discard (span : Span)
  | diag (d : Diagnostic)
deriving DecidableEq, Repr

def LexItem.spanOf : LexItem → Span
  | .tok _ s => s
  | .discard s => s
  | .diag d => d.span

def tokOf : LexItem → Option (Located Token)
  | .tok t s => some ⟨t, s⟩
  | _ => none

def diagOf : LexItem → Option Diagnostic
  | .diag d => some d
  | _ => none

def discardOf : LexItem → Option Span
  | .discard s => some s
  | _ => none

/-- One step of the lexing pass of the missing `lexer` module: given the
current character, the remaining characters and the current offset, produce
the emitted event, the characters still to scan and the new offset. -/
def lexStep (c : Char) (cs : List Char) (pos : Nat) : LexItem × List Char × Nat :=
  if isWhitespaceChar c then
    let r := munch isWhitespaceChar cs
    (.discard ⟨pos, pos + 1 + r.1.length⟩, r.2, pos + 1 + r.1.length)
  else if isIdentStart c then
    let r := munch isIdentChar cs
    let text := String.mk (c :: r.1)
    (.tok (if keywords.contains text then .Keyword text else .Identifier text)
        ⟨pos, pos + 1 + r.1.length⟩, r.2, pos + 1 + r.1.length)
  else if c.isDigit then
    let r := munch Char.isDigit cs
    (.tok (.IntegerLiteral (digitsToNat (c :: r.1))) ⟨pos, pos + 1 + r.1.length⟩,
      r.2, pos + 1 + r.1.length)
  else if c = '\"' then
    match scanString cs with
    | some r =>
      (.tok (.StringLiteral (String.mk r.1)) ⟨pos, pos + 2 + r.1.length⟩,
        r.2, pos + 2 + r.1.length)
    | none =>
      (.diag ⟨⟨pos, pos + 1 + cs.length⟩, .error, "unterminated string literal"⟩,
        [], pos + 1 + cs.length)
  else if c = '/' then
    match cs with
    | '*' :: cs2 =>
      match scanComment cs2 with
      | some r => (.discard ⟨pos, pos + 2 + r.1⟩, r.2, pos + 2 + r.1)
      | none =>
        (.diag ⟨⟨pos, pos + 2 + cs2.length⟩, .error, "unterminated comment"⟩,
          [], pos + 2 + cs2.length)
    | _ => (.tok (.Operator "/") ⟨pos, pos + 1⟩, cs, pos + 1)
  else if c = '>' then
    match cs with
    | '=' :: cs2 => (.tok (.Operator ">=") ⟨pos, pos + 2⟩, cs2, pos + 2)
    | _ => (.tok (.Operator ">") ⟨pos, pos + 1⟩, cs, pos + 1)
  else if isSimpleOp c then
    (.tok (.Operator (String.mk [c])) ⟨pos, pos + 1⟩, cs, pos + 1)
  else if isPunctChar c then
    (.tok (.Punctuation (String.mk [c])) ⟨pos, pos + 1⟩, cs, pos + 1)
  else
    (.diag ⟨⟨pos, pos + 1⟩, .error, "unexpected character"⟩, cs, pos + 1)

theorem keyword_or_ident_ne_eoi {b : Bool} {x : String} :
    (if b then Token.Keyword x else Token.Identifier x) ≠ Token.EndOfInput := by
  split <;> simp

theorem lexStep_eq_ws {c : Char} (cs : List Char) (pos : Nat)
    (h : isWhitespaceChar c = true) :
    lexStep c cs pos =
      (.discard ⟨pos, pos + 1 + (munch isWhitespaceChar cs).1.length⟩,
        (munch isWhitespaceChar cs).2, pos + 1 + (munch isWhitespaceChar cs).1.length) := by
  unfold lexStep
  rw [if_pos h]

theorem lexStep_eq_ident {c : Char} (cs : List Char) (pos : Nat)
    (h1 : ¬ isWhitespaceChar c = true) (h2 : isIdentStart c = true) :
    lexStep c cs pos =
      (.tok (if keywords.contains (String.mk (c :: (munch isIdentChar cs).1))
              then .Keyword (String.mk (c :: (munch isIdentChar cs).1))
              else .Identifier (String.mk (c :: (munch isIdentChar cs).1)))
          ⟨pos, pos + 1 + (munch isIdentChar cs).1.length⟩,
        (munch isIdentChar cs).2, pos + 1 + (munch isIdentChar cs).1.length) := by
  unfold lexStep
  rw [if_neg h1, if_pos h2]

theorem lexStep_eq_digit {c : Char} (cs : List Char) (pos : Nat)
    (h1 : ¬ isWhitespaceChar c = true) (h2 : ¬ isIdentStart c = true)
    (h3 : c.isDigit = true) :
    lexStep c cs pos =
      (.tok (.IntegerLiteral (digitsToNat (c :: (munch Char.isDigit cs).1)))
          ⟨pos, pos + 1 + (munch Char.isDigit cs).1.length⟩,
        (munch Char.isDigit cs).2, pos + 1 + (munch Char.isDigit cs).1.length) := by
  unfold lexStep
  rw [if_neg h1, if_neg h2, if_pos h3]

theorem lexStep_eq_quote_some {cs : List Char} {r : List Char × List Char}
    (pos : Nat) (hsc : scanString cs = some r) :
    lexStep '\"' cs pos =
      (.tok (.StringLiteral (String.mk r.1)) ⟨pos, pos + 2 + r.1.length⟩,
        r.2, pos + 2 + r.1.length) := by
  unfold lexStep
  rw [if_neg (by decide), if_neg (by decide), if_neg (by decide), if_pos rfl, hsc]

theorem lexStep_eq_quote_none {cs : List Char} (pos : Nat)
    (hsc : scanString cs = none) :
    lexStep '\"' cs pos =
      (.diag ⟨⟨pos, pos + 1 + cs.length⟩, .error, "unterminated string literal"⟩,
        [], pos + 1 + cs.length) := by
  unfold lexStep
  rw [if_neg (by decide), if_neg (by decide), if_neg (by decide), if_pos rfl, hsc]

theorem lexStep_eq_comment_some {cs2 : List Char} {r : Nat × List Char}
    (pos : Nat) (hsc : scanComment cs2 = some r) :
    lexStep '/' ('*' :: cs2) pos =
      (.discard ⟨pos, pos + 2 + r.1⟩, r.2, pos + 2 + r.1) := by
  unfold lexStep
  rw [if_neg (by decide), if_neg (by decide), if_neg (by decide), if_neg (by decide),
    if_pos rfl]
  split
  · rename_i cs2x heq
    injection heq with _ heq2
    subst heq2
    rw [hsc]
  · rename_i hcontra
    exact absurd rfl (hcontra cs2)

theorem lexStep_eq_comment_none {cs2 : List Char} (pos : Nat)
    (hsc : scanComment cs2 = none) :
    lexStep '/' ('*' :: cs2) pos =
      (.diag ⟨⟨pos, pos + 2 + cs2.length⟩, .error, "unterminated comment"⟩,
        [], pos + 2 + cs2.length) := by
  unfold lexStep
  rw [if_neg (by decide), if_neg (by decide), if_neg (by decide), if_neg (by decide),
    if_pos rfl]
  split
  · rename_i cs2x heq
    injection heq with _ heq2
    subst heq2
    rw [hsc]
  · rename_i hcontra
    exact absurd rfl (hcontra cs2)

theorem lexStep_eq_slash_op {cs : List Char} (pos : Nat)
    (hne : ∀ cs2, cs ≠ '*' :: cs2) :
    lexStep '/' cs pos = (.tok (.Operator "/") ⟨pos, pos + 1⟩, cs, pos + 1) := by
  unfold lexStep
  rw [if_neg (by decide), if_neg (by decide), if_neg (by decide), if_neg (by decide),
    if_pos rfl]
  split
  · simp_all
  · rfl

theorem lexStep_eq_gt_eq (cs2 : List Char) (pos : Nat) :
    lexStep '>' ('=' :: cs2) pos =
      (.tok (.Operator ">=") ⟨pos, pos + 2⟩, cs2, pos + 2) := by
  unfold lexStep
  rw [if_neg (by decide), if_neg (by decide), if_neg (by decide), if_neg (by decide),
    if_neg (by decide), if_pos rfl]
  split
  · rename_i cs2x heq
    injection heq with _ heq2
    subst heq2
    rfl
  · rename_i hcontra
    exact absurd rfl (hcontra cs2)

theorem lexStep_eq_gt_op {cs : List Char} (pos : Nat)
    (hne : ∀ cs2, cs ≠ '=' :: cs2) :
    lexStep '>' cs pos = (.tok (.Operator ">") ⟨pos, pos + 1⟩, cs, pos + 1) := by
  unfold lexStep
  rw [if_neg (by decide), if_neg (by decide), if_neg (by decide), if_neg (by decide),
    if_neg (by decide), if_pos rfl]
  split
  · simp_all
  · rfl

theorem lexStep_eq_simpleOp {c : Char} (cs : List Char) (pos : Nat)
    (h1 : ¬ isWhitespaceChar c = true) (h2 : ¬ isIdentStart c = true)
    (h3 : ¬ c.isDigit = true) (h4 : ¬ c = '\"') (h5 : ¬ c = '/') (h6 : ¬ c = '>')
    (h7 : isSimpleOp c = true) :
    lexStep c cs pos =
      (.tok (.Operator (String.mk [c])) ⟨pos, pos + 1⟩, cs, pos + 1) := by
  unfold lexStep
  rw [if_neg h1, if_neg h2, if_neg h3, if_neg h4, if_neg h5, if_neg h6, if_pos h7]

theorem lexStep_eq_punct {c : Char} (cs : List Char) (pos : Nat)
    (h1 : ¬ isWhitespaceChar c = true) (h2 : ¬ isIdentStart c = true)
    (h3 : ¬ c.isDigit = true) (h4 : ¬ c = '\"') (h5 : ¬ c = '/') (h6 : ¬ c = '>')
    (h7 : ¬ isSimpleOp c = true) (h8 : isPunctChar c = true) :
    lexStep c cs pos =
      (.tok (.Punctuation (String.mk [c])) ⟨pos, pos + 1⟩, cs, pos + 1) := by
  unfold lexStep
  rw [if_neg h1, if_neg h2, if_neg h3, if_neg h4, if_neg h5, if_neg h6, if_neg h7,
    if_pos h8]

theorem lexStep_eq_unexpected {c : Char} (cs : List Char) (pos : Nat)
    (h1 : ¬ isWhitespaceChar c = true) (h2 : ¬ isIdentStart c = true)
    (h3 : ¬ c.isDigit = true) (h4 : ¬ c = '\"') (h5 : ¬ c = '/') (h6 : ¬ c = '>')
    (h7 : ¬ isSimpleOp c = true) (h8 : ¬ isPunctChar c = true) :
    lexStep c cs pos =
      (.diag ⟨⟨pos, pos + 1⟩, .error, "unexpected character"⟩, cs, pos + 1) := by
  unfold lexStep
  rw [if_neg h1, if_neg h2, if_neg h3, if_neg h4, if_neg h5, if_neg h6, if_neg h7,
    if_neg h8]

theorem lexStep_spec (c : Char) (cs : List Char) (pos : Nat) :
    (lexStep c cs pos).1.spanOf = ⟨pos, (lexStep c cs pos).2.2⟩ ∧
    pos < (lexStep c cs pos).2.2 ∧
    (lexStep c cs pos).2.2 + (lexStep c cs pos).2.1.length = pos + 1 + cs.length ∧
    (∀ t s, (lexStep c cs pos).1 = .tok t s → t ≠ .EndOfInput) := by
  by_cases h1 : isWhitespaceChar c = true
  · rw [lexStep_eq_ws cs pos h1]
    try dsimp only
    refine ⟨rfl, by omega, ?_, by intro t s h; cases h⟩
    have := munch_length isWhitespaceChar cs
    try dsimp only
    omega
  by_cases h2 : isIdentStart c = true
  · rw [lexStep_eq_ident cs pos h1 h2]
    try dsimp only
    refine ⟨rfl, by omega, ?_, ?_⟩
    · have := munch_length isIdentChar cs
      try dsimp only
      omega
    · intro t s h
      injection h with hh _
      rw [← hh]
      exact keyword_or_ident_ne_eoi
  by_cases h3 : c.isDigit = true
  · rw [lexStep_eq_digit cs pos h1 h2 h3]
    try dsimp only
    refine ⟨rfl, by omega, ?_, ?_⟩
    · have := munch_length Char.isDigit cs
      try dsimp only
      omega
    · intro t s h
      injection h with hh _
      rw [← hh]
      simp
  by_cases h4 : c = '\"'
  · subst h4
    cases hsc : scanString cs with
    | some r =>
      rw [lexStep_eq_quote_some pos hsc]
      try dsimp only
      refine ⟨rfl, by omega, ?_, ?_⟩
      · have := scanString_length hsc
        try dsimp only
        omega
      · intro t s h
        injection h with hh _
        rw [← hh]
        simp
    | none =>
      rw [lexStep_eq_quote_none pos hsc]
      try dsimp only
      exact ⟨rfl, by omega, by simp, by intro t s h; cases h⟩
  by_cases h5 : c = '/'
  · subst h5
    rcases hcs : cs with _ | ⟨d, ds⟩
    · rw [lexStep_eq_slash_op pos (by intro cs2 h; cases h)]
      try dsimp only
      exact ⟨rfl, by omega, by simp, by intro t s h; injection h with hh _; rw [← hh]; simp⟩
    · by_cases hd : d = '*'
      · subst hd
        cases hsc : scanComment ds with
        | some r =>
          rw [lexStep_eq_comment_some pos hsc]
          try dsimp only
          refine ⟨rfl, by omega, ?_, by intro t s h; cases h⟩
          have := scanComment_length hsc
          simp only [List.length_cons]
          omega
        | none =>
          rw [lexStep_eq_comment_none pos hsc]
          try dsimp only
          refine ⟨rfl, by omega, ?_, by intro t s h; cases h⟩
          simp only [List.length_cons, List.length_nil]
          omega
      · rw [lexStep_eq_slash_op pos (by intro cs2 h; injection h with hh _; exact hd hh)]
        try dsimp only
        exact ⟨rfl, by omega, by simp, by intro t s h; injection h with hh _; rw [← hh]; simp⟩
  by_cases h6 : c = '>'
  · subst h6
    rcases hcs : cs with _ | ⟨d, ds⟩
    · rw [lexStep_eq_gt_op pos (by intro cs2 h; cases h)]
      try dsimp only
      exact ⟨rfl, by omega, by simp, by intro t s h; injection h with hh _; rw [← hh]; simp⟩
    · by_cases hd : d = '='
      · subst hd
        rw [lexStep_eq_gt_eq ds pos]
        try dsimp only
        refine ⟨rfl, by omega, ?_, by intro t s h; injection h with hh _; rw [← hh]; simp⟩
        simp only [List.length_cons]
        omega
      · rw [lexStep_eq_gt_op pos (by intro cs2 h; injection h with hh _; exact hd hh)]
        try dsimp only
        exact ⟨rfl, by omega, by simp, by intro t s h; injection h with hh _; rw [← hh]; simp⟩
  by_cases h7 : isSimpleOp c = true
  · rw [lexStep_eq_simpleOp cs pos h1 h2 h3 h4 h5 h6 h7]
    try dsimp only
    exact ⟨rfl, by omega, by simp, by intro t s h; injection h with hh _; rw [← hh]; simp⟩
  by_cases h8 : isPunctChar c = true
  · rw [lexStep_eq_punct cs pos h1 h2 h3 h4 h5 h6 h7 h8]
    try dsimp only
    exact ⟨rfl, by omega, by simp, by intro t s h; injection h with hh _; rw [← hh]; simp⟩
  · rw [lexStep_eq_unexpected cs pos h1 h2 h3 h4 h5 h6 h7 h8]
    try dsimp only
    exact ⟨rfl, by omega, by simp, by intro t s h; cases h⟩

theorem lexStep_rest_length (c : Char) (cs : List Char) (pos : Nat) :
    (lexStep c cs pos).2.1.length ≤ cs.length := by
  have h := (lexStep_spec c cs pos).2.2.1
  have h2 := (lexStep_spec c cs pos).2.1
  omega

/-- Fuel-driven worker for the lexing pass: the fuel is an upper bound on
the number of characters left; it never runs out when initialized with the
buffer length, since every step consumes at least one character. -/
def itemsFromAux : Nat → List Char → Nat → List LexItem
  | _, [], pos => [.tok .EndOfInput ⟨pos, pos⟩]
  | 0, _ :: _, pos => [.tok .EndOfInput ⟨pos, pos⟩]
  | fuel + 1, c :: cs, pos =>
    (lexStep c cs pos).1 :: itemsFromAux fuel (lexStep c cs pos).2.1 (lexStep c cs pos).2.2

/-- Modelled from the spec: the lexing pass of the missing `lexer` module,
as an event sequence.  `pos` is the offset of the first character of `l` in
the original buffer.  Numeric literals are modelled as plain digit runs
(their optional fractional and exponent parts are an implementation choice
no verified property depends on). -/
def itemsFrom (l : List Char) (pos : Nat) : List LexItem :=
  itemsFromAux l.length l pos

theorem itemsFromAux_fuel {f1 f2 : Nat} (l : List Char) (pos : Nat)
    (h1 : l.length ≤ f1) (h2 : l.length ≤ f2) :
    itemsFromAux f1 l pos = itemsFromAux f2 l pos := by
  induction f1 generalizing f2 l pos with
  | zero =>
    have : l = [] := List.length_eq_zero.mp (Nat.le_zero.mp h1)
    subst this
    cases f2 <;> rfl
  | succ f ih =>
    cases l with
    | nil => cases f2 <;> rfl
    | cons c cs =>
      cases f2 with
      | zero => simp at h2
      | succ f2x =>
        show (lexStep c cs pos).1 :: itemsFromAux f (lexStep c cs pos).2.1 (lexStep c cs pos).2.2 =
          (lexStep c cs pos).1 :: itemsFromAux f2x (lexStep c cs pos).2.1 (lexStep c cs pos).2.2
        congr 1
        have := lexStep_rest_length c cs pos
        simp only [List.length_cons] at h1 h2
        exact ih _ _ (by omega) (by omega)

theorem itemsFrom_nil (pos : Nat) : itemsFrom [] pos = [.tok .EndOfInput ⟨pos, pos⟩] := rfl

theorem itemsFrom_cons (c : Char) (cs : List Char) (pos : Nat) :
    itemsFrom (c :: cs) pos =
      (lexStep c cs pos).1 :: itemsFrom (lexStep c cs pos).2.1 (lexStep c cs pos).2.2 := by
  show itemsFromAux (cs.length + 1) (c :: cs) pos = _
  show (lexStep c cs pos).1 :: itemsFromAux cs.length (lexStep c cs pos).2.1 (lexStep c cs pos).2.2 = _
  congr 1
  exact itemsFromAux_fuel _ _ (lexStep_rest_length c cs pos) (Nat.le_refl _)

structure LexResult where
  tokens : List (Located Token)
  diagnostics : List Diagnostic
  discarded : List Span
deriving DecidableEq, Repr

/-- Modelled from the spec: `tokenize(source) -> sequence of Located<Token>`
together with the accumulated diagnostics and the discarded regions. -/
def tokenize (src : String) : LexResult :=
  let items := itemsFrom src.data 0
  ⟨items.filterMap tokOf, items.filterMap diagOf, items.filterMap discardOf⟩

/-! ## Parse tree model

Modelled from the spec: the `parse_tree` module declared in
`src/parser/src/lib.rs` is missing from the sources.  Each node carries one
span covering itself and all descendants; children are exclusively owned. -/

/-- Expression nodes: literals, identifiers, parenthesized groups and binary
operations. -/
inductive Expression where
  | Literal (value : Nat) (span : Span)
  | StrLit (text : String) (span : Span)
  | Identifier (name : String) (span : Span)
  | Group (inner : Expression) (span : Span)
  | Binary (op : String) (lhs rhs : Expression) (span : Span)
deriving DecidableEq, Repr

def Expression.span : Expression → Span
  | .Literal _ s => s
  | .StrLit _ s => s
  | .Identifier _ s => s
  | .Group _ s => s
  | .Binary _ _ _ s => s

/-- Statement nodes: variable declarations and expression statements. -/
inductive Statement where
  | LetDecl (name : String) (value : Expression) (span : Span)
  | ExprStatement (e : Expression) (span : Span)
deriving DecidableEq, Repr

def Statement.span : Statement → Span
  | .LetDecl _ _ s => s
  | .ExprStatement _ s => s

/-- The root node: a program is a sequence of top-level constructs; its span
covers the whole buffer. -/
structure Program where
  statements : List Statement
  span : Span
deriving DecidableEq, Repr

/-! ## Grammar-driven parser

Modelled from the spec: the `parser` module and the `charj` grammar declared
in `src/parser/src/lib.rs` are missing from the sources.  Recursive descent
with precedence climbing (multiplicative binds tighter than additive, all
binary operators left-associative).  On a token mismatch the parser records
a diagnostic at the offending token's span and the caller recovers by
skipping to a statement boundary (the next semicolon), so one syntax error
does not prevent detection of subsequent independent errors.  Recursion
depth is guarded by an explicit budget; exhausting it reports a distinct
"expression too deeply nested" diagnostic rather than crashing. -/

def headSpan : List (Located Token) → Span
  | [] => ⟨0, 0⟩
  | t :: _ => t.span

def depthDiag (toks : List (Located Token)) : Diagnostic :=
  ⟨headSpan toks, .error, "expression too deeply nested"⟩

def unexpectedDiag (s : Span) : Diagnostic :=
  ⟨s, .error, "unexpected token"⟩

def expectedDiag (s : Span) (what : String) : Diagnostic :=
  ⟨s, .error, what⟩

mutual

/-- Primary expressions: literals, identifiers, parenthesized groups. -/
def parsePrimary : Nat → List (Located Token) →
    Option Expression × List (Located Token) × List Diagnostic
  | 0, toks => (none, toks, [depthDiag toks])
  | fuel + 1, toks =>
    match toks with
    | ⟨.IntegerLiteral v, s⟩ :: rest => (some (.Literal v s), rest, [])
    | ⟨.StringLiteral t, s⟩ :: rest => (some (.StrLit t s), rest, [])
    | ⟨.Identifier n, s⟩ :: rest => (some (.Identifier n s), rest, [])
    | ⟨.Punctuation "(", s1⟩ :: rest =>
      match parseAdd fuel rest with
      | (some e, rest2, ds) =>
        match rest2 with
        | ⟨.Punctuation ")", s2⟩ :: rest3 =>
          (some (.Group e ⟨s1.start, s2.stop⟩), rest3, ds)
        | other => (none, other, ds ++ [expectedDiag (headSpan other) "expected closing parenthesis"])
      | (none, rest2, ds) => (none, rest2, ds)
    | t :: rest => (none, t :: rest, [unexpectedDiag t.span])
    | [] => (none, [], [unexpectedDiag ⟨0, 0⟩])
termination_by structural fuel _ => fuel

/-- Left-associative chain of multiplicative operators. -/
def chainMul : Nat → Expression → List (Located Token) →
    Expression × List (Located Token) × List Diagnostic
  | 0, lhs, toks => (lhs, toks, [depthDiag toks])
  | fuel + 1, lhs, toks =>
    match toks with
    | ⟨.Operator op, s⟩ :: rest =>
      if op = "*" || op = "/" then
        match parsePrimary fuel rest with
        | (some rhs, rest2, ds) =>
          let r := chainMul fuel (.Binary op lhs rhs ⟨lhs.span.start, rhs.span.stop⟩) rest2
          (r.1, r.2.1, ds ++ r.2.2)
        | (none, rest2, ds) => (lhs, rest2, ds)
      else (lhs, ⟨.Operator op, s⟩ :: rest, [])
    | other => (lhs, other, [])
termination_by structural fuel _ _ => fuel

/-- Multiplicative level: a primary followed by a multiplicative chain. -/
def parseMul : Nat → List (Located Token) →
    Option Expression × List (Located Token) × List Diagnostic
  | 0, toks => (none, toks, [depthDiag toks])
  | fuel + 1, toks =>
    match parsePrimary fuel toks with
    | (some e, rest, ds) =>
      let r := chainMul fuel e rest
      (some r.1, r.2.1, ds ++ r.2.2)
    | (none, rest, ds) => (none, rest, ds)
termination_by structural fuel _ => fuel

/-- Left-associative chain of additive operators. -/
def chainAdd : Nat → Expression → List (Located Token) →
    Expression × List (Located Token) × List Diagnostic
  | 0, lhs, toks => (lhs, toks, [depthDiag toks])
  | fuel + 1, lhs, toks =>
    match toks with
    | ⟨.Operator op, s⟩ :: rest =>
      if op = "+" || op = "-" then
        match parseMul fuel rest with
        | (some rhs, rest2, ds) =>
          let r := chainAdd fuel (.Binary op lhs rhs ⟨lhs.span.start, rhs.span.stop⟩) rest2
          (r.1, r.2.1, ds ++ r.2.2)
        | (none, rest2, ds) => (lhs, rest2, ds)
      else (lhs, ⟨.Operator op, s⟩ :: rest, [])
    | other => (lhs, other, [])
termination_by structural fuel _ _ => fuel

/-- Additive level, the top of the expression grammar. -/
def parseAdd : Nat → List (Located Token) →
    Option Expression × List (Located Token) × List Diagnostic
  | 0, toks => (none, toks, [depthDiag toks])
  | fuel + 1, toks =>
    match parseMul fuel toks with
    | (some e, rest, ds) =>
      let r := chainAdd fuel e rest
      (some r.1, r.2.1, ds ++ r.2.2)
    | (none, rest, ds) => (none, rest, ds)
termination_by structural fuel _ => fuel

/-- One statement: a `let` declaration or an expression statement, each
terminated by a semicolon. -/
def parseStatement : Nat → List (Located Token) →
    Option Statement × List (Located Token) × List Diagnostic
  | 0, toks => (none, toks, [depthDiag toks])
  | fuel + 1, toks =>
    match toks with
    | ⟨.Keyword "let", s0⟩ :: ⟨.Identifier n, _⟩ :: ⟨.Operator "=", _⟩ :: rest =>
      match parseAdd fuel rest with
      | (some e, rest2, ds) =>
        match rest2 with
        | ⟨.Punctuation ";", s3⟩ :: rest3 =>
          (some (.LetDecl n e ⟨s0.start, s3.stop⟩), rest3, ds)
        | other => (none, other, ds ++ [expectedDiag (headSpan other) "expected semicolon"])
      | (none, rest2, ds) => (none, rest2, ds)
    | _ =>
      match parseAdd fuel toks with
      | (some e, rest2, ds) =>
        match rest2 with
        | ⟨.Punctuation ";", s⟩ :: rest3 =>
          (some (.ExprStatement e ⟨e.span.start, s.stop⟩), rest3, ds)
        | other => (none, other, ds ++ [expectedDiag (headSpan other) "expected semicolon"])
      | (none, rest2, ds) => (none, rest2, ds)

end

/-- A token is the statement-boundary semicolon. -/
def isSemiTok (t : Located Token) : Bool :=
  match t.node with
  | .Punctuation k => k = ";"
  | _ => false

/-- A token is the end-of-input marker. -/
def isEoiTok (t : Located Token) : Bool :=
  match t.node with
  | .EndOfInput => true
  | _ => false

/-- Error recovery: skip tokens up to and including the next statement
boundary (a semicolon); never consume the end-of-input token. -/
def skipToSemi : List (Located Token) → List (Located Token)
  | [] => []
  | t :: rest =>
    if isSemiTok t then rest
    else if isEoiTok t then t :: rest
    else skipToSemi rest

/-- The statement loop: parse statements until end of input, recording
diagnostics and recovering at statement boundaries. -/
def parseStatements : Nat → List (Located Token) →
    List Statement × List Diagnostic
  | 0, _ => ([], [])
  | fuel + 1, toks =>
    match toks with
    | [] => ([], [])
    | ⟨.EndOfInput, _⟩ :: _ => ([], [])
    | _ =>
      match parseStatement fuel toks with
      | (some st, rest, ds) =>
        let r := parseStatements fuel rest
        (st :: r.1, ds ++ r.2)
      | (none, rest, ds) =>
        let r := parseStatements fuel (skipToSemi rest)
        (r.1, ds ++ r.2)

/-- The outcome of parsing one source buffer: a best-effort tree plus the
accumulated diagnostics (empty on success). -/
structure ParseResult where
  tree : Program
  diagnostics : List Diagnostic
deriving DecidableEq, Repr

/-- Modelled from the spec: `parse(source) -> Result`, the whole front end.
The lexer's diagnostics are aggregated with the parser's; the root node's
span is the span of the full buffer. -/
def parse (src : String) : ParseResult :=
  let lr := tokenize src
  let r := parseStatements (4 * lr.tokens.length + 8) lr.tokens
  ⟨⟨r.1, ⟨0, src.length⟩⟩, lr.diagnostics ++ r.2⟩

/-! ## Lexer structure lemmas -/

/-- A list of spans tiles the half-open interval from `a` to `b` exactly:
each span starts where the previous one stopped, and the last stops at
`b`. -/
def Tiling : Nat → Nat → List Span → Prop
  | a, b, [] => a = b
  | a, b, s :: rest => s.start = a ∧ a ≤ s.stop ∧ Tiling s.stop b rest

/-- The master invariant of one lexing step: unchanged goals after peeling
one item off the event sequence. -/
def LexSpec (l : List Char) (pos : Nat) : Prop :=
  Tiling pos (pos + l.length) ((itemsFrom l pos).map LexItem.spanOf) ∧
  ∃ body, itemsFrom l pos =
      body ++ [.tok .EndOfInput ⟨pos + l.length, pos + l.length⟩] ∧
    ∀ t s, LexItem.tok t s ∈ body → t ≠ .EndOfInput ∧ s.start < s.stop

theorem lexSpec_step {c : Char} {cs rest : List Char} {pos pos2 : Nat}
    {item : LexItem}
    (hit : itemsFrom (c :: cs) pos = item :: itemsFrom rest pos2)
    (hspan : item.spanOf = ⟨pos, pos2⟩)
    (hk : pos < pos2)
    (hlen : pos2 + rest.length = pos + (c :: cs).length)
    (htok : ∀ t s, item = .tok t s → t ≠ .EndOfInput)
    (ih : LexSpec rest pos2) :
    LexSpec (c :: cs) pos := by
  obtain ⟨iht, body, hbody, hcond⟩ := ih
  constructor
  · rw [hit, List.map_cons, hspan]
    simp only [Tiling]
    refine ⟨by simp, by show pos ≤ pos2; omega, ?_⟩
    show Tiling pos2 (pos + (c :: cs).length) (List.map LexItem.spanOf (itemsFrom rest pos2))
    rw [← hlen]
    exact iht
  · refine ⟨item :: body, ?_, ?_⟩
    · rw [hit, hbody, ← hlen]
      simp
    · intro t s hmem
      rcases List.mem_cons.mp hmem with h1 | h1
      · have hs : s = ⟨pos, pos2⟩ := by
          have h2 := hspan
          rw [← h1] at h2
          simpa [LexItem.spanOf] using h2
        constructor
        · exact htok t s h1.symm
        · rw [hs]
          show pos < pos2
          omega
      · exact hcond t s h1

theorem itemsFrom_lexSpec_aux :
    ∀ (n : Nat) (l : List Char), l.length ≤ n → ∀ pos, LexSpec l pos := by
  intro n
  induction n with
  | zero =>
    intro l hl pos
    have : l = [] := List.length_eq_zero.mp (Nat.le_zero.mp hl)
    subst this
    refine ⟨?_, [], by simp [itemsFrom_nil], by simp⟩
    rw [itemsFrom_nil]
    simp [Tiling, LexItem.spanOf]
  | succ n ih =>
    intro l hl pos
    cases l with
    | nil =>
      refine ⟨?_, [], by simp [itemsFrom_nil], by simp⟩
      rw [itemsFrom_nil]
      simp [Tiling, LexItem.spanOf]
    | cons c cs =>
      obtain ⟨hspan, hlt, hlen, htok⟩ := lexStep_spec c cs pos
      have hrest := lexStep_rest_length c cs pos
      simp only [List.length_cons] at hl
      refine lexSpec_step (itemsFrom_cons c cs pos) hspan hlt ?_ htok
        (ih _ (by omega) _)
      simp only [List.length_cons]
      omega

theorem itemsFrom_lexSpec (l : List Char) (pos : Nat) : LexSpec l pos :=
  itemsFrom_lexSpec_aux l.length l (Nat.le_refl _) pos

/-! ## Consequences of the lexing invariant -/

theorem tiling_le {a b : Nat} {spans : List Span} (h : Tiling a b spans) : a ≤ b := by
  induction spans generalizing a with
  | nil => exact Nat.le_of_eq h
  | cons s0 rest ih =>
    obtain ⟨h1, h2, h3⟩ := h
    exact Nat.le_trans h2 (ih h3)

theorem tiling_bounds {a b : Nat} {spans : List Span} (h : Tiling a b spans) :
    ∀ s ∈ spans, a ≤ s.start ∧ s.start ≤ s.stop ∧ s.stop ≤ b := by
  induction spans generalizing a with
  | nil => simp
  | cons s0 rest ih =>
    obtain ⟨h1, h2, h3⟩ := h
    intro s hs
    rcases List.mem_cons.mp hs with rfl | hmem
    · exact ⟨Nat.le_of_eq h1.symm, by omega, tiling_le h3⟩
    · have := ih h3 s hmem
      omega

theorem tiling_pairwise {a b : Nat} {spans : List Span} (h : Tiling a b spans) :
    spans.Pairwise (fun s t => s.stop ≤ t.start) := by
  induction spans generalizing a with
  | nil => exact List.Pairwise.nil
  | cons s0 rest ih =>
    obtain ⟨h1, h2, h3⟩ := h
    refine List.Pairwise.cons ?_ (ih h3)
    intro t ht
    exact (tiling_bounds h3 t ht).1

theorem tiling_covers {a b : Nat} {spans : List Span} (h : Tiling a b spans) :
    ∀ i, a ≤ i → i < b → ∃ s ∈ spans, s.start ≤ i ∧ i < s.stop := by
  induction spans generalizing a with
  | nil => intro i h1 h2; rw [h] at h1; omega
  | cons s0 rest ih =>
    obtain ⟨h1, h2, h3⟩ := h
    intro i hi1 hi2
    by_cases hc : i < s0.stop
    · exact ⟨s0, List.mem_cons_self s0 rest, by omega, hc⟩
    · obtain ⟨s, hs1, hs2⟩ := ih h3 i (by omega) hi2
      exact ⟨s, List.mem_cons_of_mem s0 hs1, hs2⟩

theorem filterMap_spans_sublist {α : Type} (f : LexItem → Option α) (g : α → Span)
    (hfg : ∀ i a, f i = some a → g a = i.spanOf) (items : List LexItem) :
    List.Sublist ((items.filterMap f).map g) (items.map LexItem.spanOf) := by
  induction items with
  | nil => simp
  | cons i rest ih =>
    cases hf : f i with
    | none =>
      rw [List.filterMap_cons_none hf, List.map_cons]
      exact ih.cons i.spanOf
    | some a =>
      rw [List.filterMap_cons_some hf, List.map_cons, List.map_cons, hfg i a hf]
      exact ih.cons₂ i.spanOf

theorem tokOf_span (i : LexItem) (a : Located Token) (h : tokOf i = some a) :
    a.span = i.spanOf := by
  cases i <;> simp [tokOf] at h ; simp [← h, LexItem.spanOf]

theorem diagOf_span (i : LexItem) (a : Diagnostic) (h : diagOf i = some a) :
    a.span = i.spanOf := by
  cases i <;> simp [diagOf] at h ; simp [← h, LexItem.spanOf]

theorem discardOf_span (i : LexItem) (a : Span) (h : discardOf i = some a) :
    a = i.spanOf := by
  cases i <;> simp [discardOf] at h ; simp [← h, LexItem.spanOf]

/-- Every item span belongs to one of the three result lists. -/
theorem itemSpan_mem_parts (items : List LexItem) :
    ∀ s ∈ items.map LexItem.spanOf,
      s ∈ (items.filterMap tokOf).map Located.span ∨
      s ∈ items.filterMap discardOf ∨
      s ∈ (items.filterMap diagOf).map Diagnostic.span := by
  induction items with
  | nil => simp
  | cons i rest ih =>
    intro s hs
    rw [List.map_cons] at hs
    rcases List.mem_cons.mp hs with rfl | hmem
    · cases i with
      | tok t sp =>
        left
        simp [tokOf, LexItem.spanOf, List.filterMap_cons]
      | discard sp =>
        right; left
        simp [discardOf, LexItem.spanOf, List.filterMap_cons]
      | diag d =>
        right; right
        simp [diagOf, LexItem.spanOf, List.filterMap_cons]
    · rcases ih s hmem with h | h | h
      · left
        cases hf : tokOf i with
        | none => rwa [List.filterMap_cons_none hf]
        | some a => rw [List.filterMap_cons_some hf, List.map_cons]; exact List.mem_cons_of_mem _ h
      · right; left
        cases hf : discardOf i with
        | none => rwa [List.filterMap_cons_none hf]
        | some a => rw [List.filterMap_cons_some hf]; exact List.mem_cons_of_mem _ h
      · right; right
        cases hf : diagOf i with
        | none => rwa [List.filterMap_cons_none hf]
        | some a => rw [List.filterMap_cons_some hf, List.map_cons]; exact List.mem_cons_of_mem _ h

/-- The token stream of a buffer decomposes into a body followed by the
end-of-input token. -/
theorem tokenize_tokens_decomp (src : String) :
    ∃ body, (tokenize src).tokens =
        body ++ [⟨.EndOfInput, ⟨src.length, src.length⟩⟩] ∧
      ∀ t ∈ body, t.node ≠ .EndOfInput ∧ t.span.start < t.span.stop := by
  obtain ⟨_, items, hitems, hcond⟩ := itemsFrom_lexSpec src.data 0
  refine ⟨items.filterMap tokOf, ?_, ?_⟩
  · show (itemsFrom src.data 0).filterMap tokOf = _
    rw [hitems, List.filterMap_append]
    have : List.filterMap tokOf
        [LexItem.tok .EndOfInput ⟨0 + src.data.length, 0 + src.data.length⟩] =
        [⟨.EndOfInput, ⟨src.length, src.length⟩⟩] := by
      simp [tokOf]
    rw [this]
  · intro t ht
    obtain ⟨i, hi, hf⟩ := List.mem_filterMap.mp ht
    cases i with
    | tok tk sp =>
      simp [tokOf] at hf
      obtain ⟨h1, h2⟩ := hcond tk sp hi
      rw [← hf]
      exact ⟨h1, h2⟩
    | discard sp => simp [tokOf] at hf
    | diag d => simp [tokOf] at hf

/-- Spans of every lexing pass tile the whole buffer. -/
theorem tokenize_tiling (src : String) :
    Tiling 0 src.length ((itemsFrom src.data 0).map LexItem.spanOf) := by
  have := (itemsFrom_lexSpec src.data 0).1
  simpa using this

/-- The emitted tokens are ordered, within bounds, and non-degenerate. -/
def TokensOrdered (ts : List (Located Token)) : Prop :=
  (∀ t ∈ ts, t.span.start ≤ t.span.stop) ∧
  ts.Pairwise (fun a b => a.span.stop ≤ b.span.start)

theorem tokenize_ordered (src : String) :
    TokensOrdered (tokenize src).tokens ∧
    ∀ t ∈ (tokenize src).tokens, t.span.stop ≤ src.length := by
  have ht := tokenize_tiling src
  have hsub := filterMap_spans_sublist tokOf Located.span tokOf_span (itemsFrom src.data 0)
  have hb := tiling_bounds ht
  have hp := tiling_pairwise ht
  have hmem : ∀ t ∈ (tokenize src).tokens, t.span ∈ (itemsFrom src.data 0).map LexItem.spanOf := by
    intro t htm
    have : t.span ∈ ((itemsFrom src.data 0).filterMap tokOf).map Located.span :=
      List.mem_map_of_mem Located.span htm
    exact hsub.mem this
  refine ⟨⟨?_, ?_⟩, ?_⟩
  · intro t htm
    exact (hb t.span (hmem t htm)).2.1
  · have := hp.sublist hsub
    rw [List.pairwise_map] at this
    exact this
  · intro t htm
    exact (hb t.span (hmem t htm)).2.2

/-- A position is covered by one of a list of spans. -/
def coveredBy (spans : List Span) (i : Nat) : Prop :=
  ∃ s ∈ spans, s.start ≤ i ∧ i < s.stop

instance (spans : List Span) (i : Nat) : Decidable (coveredBy spans i) := by
  unfold coveredBy
  infer_instance

/-! ## Claim C3: termination and end-of-input token -/

/-- C3: `tokenize` terminates for every source buffer (it is a total
function of the model) and yields a finite token sequence that ends with
the explicit end-of-input token, located at the end of the buffer. -/
theorem tokenize_ends_with_eoi (src : String) :
    (tokenize src).tokens ≠ [] ∧
    (tokenize src).tokens.getLast? =
      some ⟨.EndOfInput, ⟨src.length, src.length⟩⟩ := by
  obtain ⟨body, hb, _⟩ := tokenize_tokens_decomp src
  rw [hb]
  constructor
  · simp
  · rw [List.getLast?_concat]

/-! ## Claim C4: token spans are ordered and tile the buffer -/

/-- C4 as stated is refuted: for the buffer "?" the single unrecognized
character is skipped with a diagnostic, so the token spans together with
the discarded whitespace/comment regions alone do not cover the buffer. -/
theorem token_spans_do_not_cover :
    0 < ("?" : String).length ∧
    ¬ coveredBy ((tokenize "?").tokens.map Located.span ++ (tokenize "?").discarded) 0 :=
  ⟨by decide, by decide⟩

/-- C4 (amended): for every source buffer the token spans are in source
order (each span stops before the next starts), non-degenerate except for
the end-of-input token, within the buffer, and together with the discarded
whitespace/comment regions and the spans of the lexer's diagnostics they
cover the whole buffer. -/
theorem token_spans_ordered_cover (src : String) :
    (tokenize src).tokens.Pairwise (fun a b => a.span.stop ≤ b.span.start) ∧
    (∀ t ∈ (tokenize src).tokens, t.span.start ≤ t.span.stop ∧ t.span.stop ≤ src.length) ∧
    (∀ t ∈ (tokenize src).tokens, t.node ≠ .EndOfInput → t.span.start < t.span.stop) ∧
    ∀ i, i < src.length →
      coveredBy ((tokenize src).tokens.map Located.span ++ (tokenize src).discarded ++
        (tokenize src).diagnostics.map Diagnostic.span) i := by
  obtain ⟨⟨ho1, ho2⟩, hbnd⟩ := tokenize_ordered src
  refine ⟨ho2, fun t ht => ⟨ho1 t ht, hbnd t ht⟩, ?_, ?_⟩
  · obtain ⟨body, hb, hcond⟩ := tokenize_tokens_decomp src
    intro t ht hne
    rw [hb] at ht
    rcases List.mem_append.mp ht with h | h
    · exact (hcond t h).2
    · simp at h
      rw [h] at hne
      simp at hne
  · intro i hi
    have ht := tokenize_tiling src
    obtain ⟨sp, hsp, hcov⟩ := tiling_covers ht i (Nat.zero_le i) hi
    have hparts := itemSpan_mem_parts (itemsFrom src.data 0) sp hsp
    refine ⟨sp, ?_, hcov⟩
    rcases hparts with h | h | h
    · exact List.mem_append.mpr (Or.inl (List.mem_append.mpr (Or.inl h)))
    · exact List.mem_append.mpr (Or.inl (List.mem_append.mpr (Or.inr h)))
    · exact List.mem_append.mpr (Or.inr h)

/-- Witness for the amended C4 at a concrete buffer and position. -/
theorem token_spans_ordered_cover_witness :
    2 < ("a ?" : String).length ∧
    coveredBy ((tokenize "a ?").tokens.map Located.span ++ (tokenize "a ?").discarded ++
      (tokenize "a ?").diagnostics.map Diagnostic.span) 2 :=
  ⟨by decide, (token_spans_ordered_cover "a ?").2.2.2 2 (by decide)⟩

/-! ## Claim C2: totality of the front end -/

/-- C2: the front end is total: every input buffer produces a well-defined
outcome, a Program tree spanning the whole buffer together with a
diagnostic list (best-effort tree plus accumulated errors), never an
unhandled fault.  Totality is witnessed by `parse` being a total function
of the model. -/
theorem parse_total (src : String) :
    ∃ stmts diags, parse src = ⟨⟨stmts, ⟨0, src.length⟩⟩, diags⟩ :=
  ⟨_, _, rfl⟩

/-! ## Claim C6: multiplicative binds tighter than additive -/

/-- Entry point of the expression grammar on a raw buffer. -/
def parseExpression (src : String) :
    Option Expression × List (Located Token) × List Diagnostic :=
  parseAdd (4 * (tokenize src).tokens.length + 8) (tokenize src).tokens

/-- C6: the expression "1 + 2 * 3" parses to
Binary(+, Literal 1, Binary(*, Literal 2, Literal 3)) — multiplicative
operators bind tighter than additive ones — and not to a tree whose root is
the multiplication. -/
theorem precedence_mul_over_add :
    (parseExpression "1 + 2 * 3").1 =
      some (.Binary "+" (.Literal 1 ⟨0, 1⟩)
        (.Binary "*" (.Literal 2 ⟨4, 5⟩) (.Literal 3 ⟨8, 9⟩) ⟨4, 9⟩) ⟨0, 9⟩) ∧
    ∀ l r sp, (parseExpression "1 + 2 * 3").1 ≠ some (.Binary "*" l r sp) := by
  have h1 : (parseExpression "1 + 2 * 3").1 =
      some (.Binary "+" (.Literal 1 ⟨0, 1⟩)
        (.Binary "*" (.Literal 2 ⟨4, 5⟩) (.Literal 3 ⟨8, 9⟩) ⟨4, 9⟩) ⟨0, 9⟩) := by
    decide
  refine ⟨h1, ?_⟩
  intro l r sp h
  rw [h1] at h
  simp at h

/-! ## Span well-formedness of parse trees (claim C5) -/

/-- A span contains another span. -/
def Span.contains (outer inner : Span) : Prop :=
  outer.start ≤ inner.start ∧ inner.stop ≤ outer.stop

/-- Every expression node's span contains the spans of its children, and
the children of a binary node are in source order and non-overlapping. -/
def Expression.WF : Expression → Prop
  | .Literal _ _ => True
  | .StrLit _ _ => True
  | .Identifier _ _ => True
  | .Group e s => Span.contains s e.span ∧ e.WF
  | .Binary _ l r s =>
      Span.contains s l.span ∧ Span.contains s r.span ∧
      l.span.stop ≤ r.span.start ∧ l.WF ∧ r.WF

/-- Every statement node's span contains the span of its child
expression. -/
def Statement.WF : Statement → Prop
  | .LetDecl _ e s => Span.contains s e.span ∧ e.WF
  | .ExprStatement e s => Span.contains s e.span ∧ e.WF

/-- The program node's span contains every statement's span, statements are
in source order and non-overlapping, and each is internally
well-formed. -/
def Program.WF (p : Program) : Prop :=
  (∀ st ∈ p.statements, Span.contains p.span st.span ∧ st.WF) ∧
  p.statements.Pairwise (fun a b => a.span.stop ≤ b.span.start)

/-! ### Parser invariants -/

theorem tokensOrdered_suffix {ts rest : List (Located Token)}
    (h : TokensOrdered ts) (hs : rest.IsSuffix ts) : TokensOrdered rest :=
  ⟨fun t ht => h.1 t (hs.subset ht), h.2.sublist hs.sublist⟩

theorem mem_of_head? {α : Type} {l : List α} {a : α} (h : l.head? = some a) :
    a ∈ l := by
  cases l with
  | nil => cases h
  | cons x xs =>
    simp at h
    rw [← h]
    exact List.mem_cons_self x xs

theorem ordered_head_rel {t : Located Token} {rest : List (Located Token)}
    (h : TokensOrdered (t :: rest)) {t1 : Located Token}
    (h1 : rest.head? = some t1) : t.span.stop ≤ t1.span.start :=
  (List.pairwise_cons.mp h.2).1 t1 (mem_of_head? h1)

theorem suffix_head_start {ts rest : List (Located Token)}
    (h : TokensOrdered ts) (hs : rest.IsSuffix ts)
    {t0 t1 : Located Token} (h0 : ts.head? = some t0)
    (h1 : rest.head? = some t1) : t0.span.start ≤ t1.span.start := by
  obtain ⟨pre, rfl⟩ := hs
  cases pre with
  | nil =>
    simp at h0
    rw [h0] at h1
    cases h1
    exact Nat.le_refl _
  | cons p ps =>
    have ht0 : p = t0 := by simpa using h0
    have hmem : t1 ∈ ps ++ rest := List.mem_append.mpr (Or.inr (mem_of_head? h1))
    have hrel := (List.pairwise_cons.mp h.2).1 t1 hmem
    have hps := h.1 p (List.mem_cons_self _ _)
    rw [← ht0]
    omega

/-- Invariant of the outcome of an expression-level parsing function:
the remaining tokens are a suffix of the input, and a returned expression
is well-formed, starts no earlier than the first input token, stops no
later than the next unconsumed token, and stops within any bound on the
input spans. -/
def ExprOut (toks : List (Located Token))
    (out : Option Expression × List (Located Token) × List Diagnostic) : Prop :=
  out.2.1.IsSuffix toks ∧
  ∀ e, out.1 = some e → e.WF ∧ e.span.start ≤ e.span.stop ∧
    (∀ t, toks.head? = some t → t.span.start ≤ e.span.start) ∧
    (∀ t, out.2.1.head? = some t → e.span.stop ≤ t.span.start) ∧
    (∀ B, (∀ t ∈ toks, t.span.stop ≤ B) → e.span.stop ≤ B)

/-- Invariant of the outcome of an operator-chain function: the result is a
well-formed expression starting where the accumulator starts. -/
def ChainOut (lhs : Expression) (toks : List (Located Token))
    (out : Expression × List (Located Token) × List Diagnostic) : Prop :=
  out.2.1.IsSuffix toks ∧
  out.1.span.start = lhs.span.start ∧
  out.1.WF ∧
  out.1.span.start ≤ out.1.span.stop ∧
  (∀ t, out.2.1.head? = some t → out.1.span.stop ≤ t.span.start) ∧
  (∀ B, (∀ t ∈ toks, t.span.stop ≤ B) → lhs.span.stop ≤ B → out.1.span.stop ≤ B)

/-- Invariant of the outcome of the statement parser. -/
def StOut (toks : List (Located Token))
    (out : Option Statement × List (Located Token) × List Diagnostic) : Prop :=
  out.2.1.IsSuffix toks ∧
  ∀ st, out.1 = some st → st.WF ∧ st.span.start ≤ st.span.stop ∧
    (∀ t, toks.head? = some t → t.span.start ≤ st.span.start) ∧
    (∀ t, out.2.1.head? = some t → st.span.stop ≤ t.span.start) ∧
    (∀ B, (∀ t ∈ toks, t.span.stop ≤ B) → st.span.stop ≤ B)

/-- Invariant of the outcome of the statement loop. -/
def StmtsOut (toks : List (Located Token))
    (out : List Statement × List Diagnostic) : Prop :=
  (∀ st ∈ out.1, st.WF ∧ st.span.start ≤ st.span.stop) ∧
  (∀ t0, toks.head? = some t0 → ∀ st ∈ out.1, t0.span.start ≤ st.span.start) ∧
  (∀ B, (∀ t ∈ toks, t.span.stop ≤ B) → ∀ st ∈ out.1, st.span.stop ≤ B) ∧
  out.1.Pairwise (fun a b => a.span.stop ≤ b.span.start)

/-- The conjunction of all parser invariants at one fuel value. -/
def InvAll (fuel : Nat) : Prop :=
  (∀ toks, TokensOrdered toks → ExprOut toks (parsePrimary fuel toks)) ∧
  (∀ toks lhs, TokensOrdered toks → lhs.WF → lhs.span.start ≤ lhs.span.stop →
    (∀ t, toks.head? = some t → lhs.span.stop ≤ t.span.start) →
    ChainOut lhs toks (chainMul fuel lhs toks)) ∧
  (∀ toks, TokensOrdered toks → ExprOut toks (parseMul fuel toks)) ∧
  (∀ toks lhs, TokensOrdered toks → lhs.WF → lhs.span.start ≤ lhs.span.stop →
    (∀ t, toks.head? = some t → lhs.span.stop ≤ t.span.start) →
    ChainOut lhs toks (chainAdd fuel lhs toks)) ∧
  (∀ toks, TokensOrdered toks → ExprOut toks (parseAdd fuel toks)) ∧
  (∀ toks, TokensOrdered toks → StOut toks (parseStatement fuel toks)) ∧
  (∀ toks, TokensOrdered toks → StmtsOut toks (parseStatements fuel toks))

theorem invAll_zero : InvAll 0 := by
  refine ⟨?_, ?_, ?_, ?_, ?_, ?_, ?_⟩
  · intro toks hord
    exact ⟨List.suffix_refl _, fun e he => by cases he⟩
  · intro toks lhs hord hWF hss hhead
    exact ⟨List.suffix_refl _, rfl, hWF, hss, hhead, fun B hB hl => hl⟩
  · intro toks hord
    exact ⟨List.suffix_refl _, fun e he => by cases he⟩
  · intro toks lhs hord hWF hss hhead
    exact ⟨List.suffix_refl _, rfl, hWF, hss, hhead, fun B hB hl => hl⟩
  · intro toks hord
    exact ⟨List.suffix_refl _, fun e he => by cases he⟩
  · intro toks hord
    exact ⟨List.suffix_refl _, fun st hst => by cases hst⟩
  · intro toks hord
    refine ⟨?_, ?_, ?_, ?_⟩
    · intro st hst
      cases hst
    · intro t0 ht0 st hst
      cases hst
    · intro B hB st hst
      cases hst
    · exact List.Pairwise.nil

theorem parsePrimary_succ (fuel : Nat) (toks : List (Located Token)) :
    parsePrimary (fuel + 1) toks =
    match toks with
    | ⟨.IntegerLiteral v, s⟩ :: rest => (some (.Literal v s), rest, [])
    | ⟨.StringLiteral t, s⟩ :: rest => (some (.StrLit t s), rest, [])
    | ⟨.Identifier n, s⟩ :: rest => (some (.Identifier n s), rest, [])
    | ⟨.Punctuation "(", s1⟩ :: rest =>
      match parseAdd fuel rest with
      | (some e, rest2, ds) =>
        match rest2 with
        | ⟨.Punctuation ")", s2⟩ :: rest3 =>
          (some (.Group e ⟨s1.start, s2.stop⟩), rest3, ds)
        | other => (none, other, ds ++ [expectedDiag (headSpan other) "expected closing parenthesis"])
      | (none, rest2, ds) => (none, rest2, ds)
    | t :: rest => (none, t :: rest, [unexpectedDiag t.span])
    | [] => (none, [], [unexpectedDiag ⟨0, 0⟩]) := rfl

theorem exprOut_single {node : Token} {sp : Span} {rest : List (Located Token)}
    (hord : TokensOrdered (⟨node, sp⟩ :: rest)) (e : Expression)
    (hWFe : e.WF) (hsp : e.span = sp) :
    ExprOut (⟨node, sp⟩ :: rest) (some e, rest, ([] : List Diagnostic)) := by
  refine ⟨List.suffix_cons _ _, ?_⟩
  intro e2 he
  injection he with hh
  subst hh
  have hss : sp.start ≤ sp.stop := hord.1 _ (List.mem_cons_self _ _)
  refine ⟨hWFe, by rw [hsp]; exact hss, ?_, ?_, ?_⟩
  · intro t ht
    injection ht with hh2
    rw [← hh2, hsp]
  · intro t ht
    rw [hsp]
    exact ordered_head_rel hord ht
  · intro B hB
    rw [hsp]
    exact hB _ (List.mem_cons_self _ _)

theorem primary_step {fuel : Nat} (ih : InvAll fuel) :
    ∀ toks, TokensOrdered toks → ExprOut toks (parsePrimary (fuel + 1) toks) := by
  intro toks hord
  rw [parsePrimary_succ]
  split
  · exact exprOut_single hord _ trivial rfl
  · exact exprOut_single hord _ trivial rfl
  · exact exprOut_single hord _ trivial rfl
  · rename_i s1 rest
    have hsub : rest.IsSuffix (⟨Token.Punctuation "(", s1⟩ :: rest) := List.suffix_cons _ _
    have hordr := tokensOrdered_suffix hord hsub
    have hadd := ih.2.2.2.2.1 rest hordr
    split
    · rename_i e rest2 ds heq
      rw [heq] at hadd
      obtain ⟨haddsuf, haddsome⟩ := hadd
      obtain ⟨hWFe, hsse, hlo, hhi, hB⟩ := haddsome e rfl
      split
      · rename_i s2 rest3
        obtain ⟨t0, rest0, rfl⟩ : ∃ t0 rest0, rest = t0 :: rest0 := by
          cases rest with
          | nil =>
            have := List.eq_nil_of_suffix_nil haddsuf
            cases this
          | cons a b => exact ⟨a, b, rfl⟩
        have ht0e : t0.span.start ≤ e.span.start := hlo t0 rfl
        have hso : s1.stop ≤ t0.span.start := ordered_head_rel hord rfl
        have hs1 : s1.start ≤ s1.stop := hord.1 _ (List.mem_cons_self _ _)
        have heclose : e.span.stop ≤ s2.start := hhi _ rfl
        have hs2mem : (⟨Token.Punctuation ")", s2⟩ : Located Token) ∈
            (⟨Token.Punctuation "(", s1⟩ :: t0 :: rest0 : List (Located Token)) :=
          List.mem_cons_of_mem _ (haddsuf.subset (List.mem_cons_self _ _))
        have hs2ss : s2.start ≤ s2.stop := hord.1 _ hs2mem
        have hsufr2 : (⟨Token.Punctuation ")", s2⟩ :: rest3 : List (Located Token)).IsSuffix
            (⟨Token.Punctuation "(", s1⟩ :: t0 :: rest0) := haddsuf.trans hsub
        refine ⟨((List.suffix_cons _ _).trans haddsuf).trans hsub, ?_⟩
        intro e2 he2x
        injection he2x with hh
        subst hh
        refine ⟨⟨⟨by show s1.start ≤ e.span.start; omega,
            by show e.span.stop ≤ s2.stop; omega⟩, hWFe⟩,
          by show s1.start ≤ s2.stop; omega, ?_, ?_, ?_⟩
        · intro t ht
          injection ht with hh2
          rw [← hh2]
          exact Nat.le_refl _
        · intro t1 ht1
          exact ordered_head_rel (tokensOrdered_suffix hord hsufr2) ht1
        · intro B hB2
          exact hB2 _ hs2mem
      · rename_i hother
        exact ⟨haddsuf.trans hsub, fun e2 he2x => by cases he2x⟩
    · rename_i rest2 ds heq
      rw [heq] at hadd
      exact ⟨hadd.1.trans hsub, fun e2 he2x => by cases he2x⟩
  · exact ⟨List.suffix_refl _, fun e2 he2x => by cases he2x⟩
  · exact ⟨List.suffix_refl _, fun e2 he2x => by cases he2x⟩

theorem parsePrimary_nil (fuel : Nat) :
    (parsePrimary fuel []).1 = none ∧ (parsePrimary fuel []).2.1 = [] := by
  cases fuel with
  | zero => exact ⟨rfl, rfl⟩
  | succ f => exact ⟨rfl, rfl⟩

theorem chainMul_succ (fuel : Nat) (lhs : Expression) (toks : List (Located Token)) :
    chainMul (fuel + 1) lhs toks =
    match toks with
    | ⟨.Operator op, s⟩ :: rest =>
      if op = "*" || op = "/" then
        match parsePrimary fuel rest with
        | (some rhs, rest2, ds) =>
          let r := chainMul fuel (.Binary op lhs rhs ⟨lhs.span.start, rhs.span.stop⟩) rest2
          (r.1, r.2.1, ds ++ r.2.2)
        | (none, rest2, ds) => (lhs, rest2, ds)
      else (lhs, ⟨.Operator op, s⟩ :: rest, [])
    | other => (lhs, other, []) := rfl

theorem head_bound_trans {toks rest2 : List (Located Token)} {v : Nat}
    (hord : TokensOrdered toks) (hsuf : rest2.IsSuffix toks)
    (hv : ∀ t, toks.head? = some t → v ≤ t.span.start) :
    ∀ t, rest2.head? = some t → v ≤ t.span.start := by
  intro t1 ht1
  cases toks with
  | nil =>
    have := List.eq_nil_of_suffix_nil hsuf
    subst this
    cases ht1
  | cons a b =>
    have h1 := hv a rfl
    have h2 := suffix_head_start hord hsuf rfl ht1
    omega

theorem chainMul_step {fuel : Nat} (ih : InvAll fuel) :
    ∀ toks lhs, TokensOrdered toks → lhs.WF → lhs.span.start ≤ lhs.span.stop →
      (∀ t, toks.head? = some t → lhs.span.stop ≤ t.span.start) →
      ChainOut lhs toks (chainMul (fuel + 1) lhs toks) := by
  intro toks lhs hord hWF hss hhead
  rw [chainMul_succ]
  split
  · rename_i op s rest
    split
    · split
      · rename_i hop rhs rest2 ds heq
        have hsub : rest.IsSuffix (⟨Token.Operator op, s⟩ :: rest) := List.suffix_cons _ _
        have hordr := tokensOrdered_suffix hord hsub
        have hprim := ih.1 rest hordr
        rw [heq] at hprim
        obtain ⟨hpsuf, hpsome⟩ := hprim
        obtain ⟨hWFr, hssr, hlor, hhir, hBr⟩ := hpsome rhs rfl
        obtain ⟨t0, rest0, rfl⟩ : ∃ t0 rest0, rest = t0 :: rest0 := by
          cases rest with
          | nil =>
            have h1 := (parsePrimary_nil fuel).1
            rw [heq] at h1
            cases h1
          | cons a b => exact ⟨a, b, rfl⟩
        have hlhs_s : lhs.span.stop ≤ s.start := hhead _ rfl
        have hs_ss : s.start ≤ s.stop := hord.1 _ (List.mem_cons_self _ _)
        have hs_t0 : s.stop ≤ t0.span.start := ordered_head_rel hord rfl
        have ht0r : t0.span.start ≤ rhs.span.start := hlor _ rfl
        have hWFnew : (Expression.Binary op lhs rhs ⟨lhs.span.start, rhs.span.stop⟩).WF := by
          refine ⟨⟨Nat.le_refl _, ?_⟩, ⟨?_, Nat.le_refl _⟩, ?_, hWF, hWFr⟩
          · show lhs.span.stop ≤ rhs.span.stop
            omega
          · show lhs.span.start ≤ rhs.span.start
            omega
          · omega
        have hchain := ih.2.1 rest2 (.Binary op lhs rhs ⟨lhs.span.start, rhs.span.stop⟩)
          (tokensOrdered_suffix hordr hpsuf) hWFnew
          (by show lhs.span.start ≤ rhs.span.stop; omega)
          (fun t ht => hhir t ht)
        obtain ⟨hcsuf, hcstart, hcWF, hcss, hchead, hcB⟩ := hchain
        refine ⟨(hcsuf.trans hpsuf).trans hsub, hcstart.trans rfl, hcWF, hcss, hchead, ?_⟩
        intro B hB hl
        refine hcB B (fun t ht => hB t (hsub.subset (hpsuf.subset ht))) ?_
        show rhs.span.stop ≤ B
        exact hBr B (fun t ht => hB t (hsub.subset ht))
      · rename_i hop rest2 ds heq
        have hsub : rest.IsSuffix (⟨Token.Operator op, s⟩ :: rest) := List.suffix_cons _ _
        have hordr := tokensOrdered_suffix hord hsub
        have hprim := ih.1 rest hordr
        rw [heq] at hprim
        have hlr : ∀ t, rest.head? = some t → lhs.span.stop ≤ t.span.start := by
          intro t ht
          have h1 : s.stop ≤ t.span.start := ordered_head_rel hord ht
          have h2 : lhs.span.stop ≤ s.start := hhead _ rfl
          have h3 : s.start ≤ s.stop := hord.1 _ (List.mem_cons_self _ _)
          omega
        refine ⟨hprim.1.trans hsub, rfl, hWF, hss, ?_, fun B hB hl => hl⟩
        exact head_bound_trans hordr hprim.1 hlr
    · exact ⟨List.suffix_refl _, rfl, hWF, hss, hhead, fun B hB hl => hl⟩
  · exact ⟨List.suffix_refl _, rfl, hWF, hss, hhead, fun B hB hl => hl⟩

theorem parseMul_succ (fuel : Nat) (toks : List (Located Token)) :
    parseMul (fuel + 1) toks =
    match parsePrimary fuel toks with
    | (some e, rest, ds) =>
      let r := chainMul fuel e rest
      (some r.1, r.2.1, ds ++ r.2.2)
    | (none, rest, ds) => (none, rest, ds) := rfl

theorem parseMul_nil (fuel : Nat) :
    (parseMul fuel []).1 = none ∧ (parseMul fuel []).2.1 = [] := by
  cases fuel with
  | zero => exact ⟨rfl, rfl⟩
  | succ f =>
    have h := parsePrimary_nil f
    rcases hp : parsePrimary f [] with ⟨o, rest, ds⟩
    rw [hp] at h
    obtain ⟨h1, h2⟩ := h
    cases o with
    | some e => simp at h1
    | none =>
      rw [parseMul_succ, hp]
      exact ⟨rfl, h2⟩

theorem parseMul_step {fuel : Nat} (ih : InvAll fuel) :
    ∀ toks, TokensOrdered toks → ExprOut toks (parseMul (fuel + 1) toks) := by
  intro toks hord
  rw [parseMul_succ]
  split
  · rename_i e rest ds heq
    have hprim := ih.1 toks hord
    rw [heq] at hprim
    obtain ⟨hpsuf, hpsome⟩ := hprim
    obtain ⟨hWFe, hsse, hloe, hhie, hBe⟩ := hpsome e rfl
    obtain ⟨hcsuf, hcstart, hcWF, hcss, hchead, hcB⟩ :=
      ih.2.1 rest e (tokensOrdered_suffix hord hpsuf) hWFe hsse hhie
    refine ⟨hcsuf.trans hpsuf, ?_⟩
    intro e2 he2
    injection he2 with hh
    subst hh
    refine ⟨hcWF, hcss, ?_, hchead, ?_⟩
    · intro t ht
      rw [hcstart]
      exact hloe t ht
    · intro B hB
      exact hcB B (fun t ht => hB t (hpsuf.subset ht)) (hBe B hB)
  · rename_i rest ds heq
    have hprim := ih.1 toks hord
    rw [heq] at hprim
    exact ⟨hprim.1, fun e2 he2 => by cases he2⟩

theorem chainAdd_succ (fuel : Nat) (lhs : Expression) (toks : List (Located Token)) :
    chainAdd (fuel + 1) lhs toks =
    match toks with
    | ⟨.Operator op, s⟩ :: rest =>
      if op = "+" || op = "-" then
        match parseMul fuel rest with
        | (some rhs, rest2, ds) =>
          let r := chainAdd fuel (.Binary op lhs rhs ⟨lhs.span.start, rhs.span.stop⟩) rest2
          (r.1, r.2.1, ds ++ r.2.2)
        | (none, rest2, ds) => (lhs, rest2, ds)
      else (lhs, ⟨.Operator op, s⟩ :: rest, [])
    | other => (lhs, other, []) := rfl

theorem chainAdd_step {fuel : Nat} (ih : InvAll fuel) :
    ∀ toks lhs, TokensOrdered toks → lhs.WF → lhs.span.start ≤ lhs.span.stop →
      (∀ t, toks.head? = some t → lhs.span.stop ≤ t.span.start) →
      ChainOut lhs toks (chainAdd (fuel + 1) lhs toks) := by
  intro toks lhs hord hWF hss hhead
  rw [chainAdd_succ]
  split
  · rename_i op s rest
    split
    · split
      · rename_i hop rhs rest2 ds heq
        have hsub : rest.IsSuffix (⟨Token.Operator op, s⟩ :: rest) := List.suffix_cons _ _
        have hordr := tokensOrdered_suffix hord hsub
        have hprim := ih.2.2.1 rest hordr
        rw [heq] at hprim
        obtain ⟨hpsuf, hpsome⟩ := hprim
        obtain ⟨hWFr, hssr, hlor, hhir, hBr⟩ := hpsome rhs rfl
        obtain ⟨t0, rest0, rfl⟩ : ∃ t0 rest0, rest = t0 :: rest0 := by
          cases rest with
          | nil =>
            have h1 := (parseMul_nil fuel).1
            rw [heq] at h1
            cases h1
          | cons a b => exact ⟨a, b, rfl⟩
        have hlhs_s : lhs.span.stop ≤ s.start := hhead _ rfl
        have hs_ss : s.start ≤ s.stop := hord.1 _ (List.mem_cons_self _ _)
        have hs_t0 : s.stop ≤ t0.span.start := ordered_head_rel hord rfl
        have ht0r : t0.span.start ≤ rhs.span.start := hlor _ rfl
        have hWFnew : (Expression.Binary op lhs rhs ⟨lhs.span.start, rhs.span.stop⟩).WF := by
          refine ⟨⟨Nat.le_refl _, ?_⟩, ⟨?_, Nat.le_refl _⟩, ?_, hWF, hWFr⟩
          · show lhs.span.stop ≤ rhs.span.stop
            omega
          · show lhs.span.start ≤ rhs.span.start
            omega
          · omega
        obtain ⟨hcsuf, hcstart, hcWF, hcss, hchead, hcB⟩ :=
          ih.2.2.2.1 rest2 (.Binary op lhs rhs ⟨lhs.span.start, rhs.span.stop⟩)
            (tokensOrdered_suffix hordr hpsuf) hWFnew
            (by show lhs.span.start ≤ rhs.span.stop; omega)
            (fun t ht => hhir t ht)
        refine ⟨(hcsuf.trans hpsuf).trans hsub, hcstart.trans rfl, hcWF, hcss, hchead, ?_⟩
        intro B hB hl
        refine hcB B (fun t ht => hB t (hsub.subset (hpsuf.subset ht))) ?_
        show rhs.span.stop ≤ B
        exact hBr B (fun t ht => hB t (hsub.subset ht))
      · rename_i hop rest2 ds heq
        have hsub : rest.IsSuffix (⟨Token.Operator op, s⟩ :: rest) := List.suffix_cons _ _
        have hordr := tokensOrdered_suffix hord hsub
        have hprim := ih.2.2.1 rest hordr
        rw [heq] at hprim
        have hlr : ∀ t, rest.head? = some t → lhs.span.stop ≤ t.span.start := by
          intro t ht
          have h1 : s.stop ≤ t.span.start := ordered_head_rel hord ht
          have h2 : lhs.span.stop ≤ s.start := hhead _ rfl
          have h3 : s.start ≤ s.stop := hord.1 _ (List.mem_cons_self _ _)
          omega
        refine ⟨hprim.1.trans hsub, rfl, hWF, hss, ?_, fun B hB hl => hl⟩
        exact head_bound_trans hordr hprim.1 hlr
    · exact ⟨List.suffix_refl _, rfl, hWF, hss, hhead, fun B hB hl => hl⟩
  · exact ⟨List.suffix_refl _, rfl, hWF, hss, hhead, fun B hB hl => hl⟩

theorem parseAdd_succ (fuel : Nat) (toks : List (Located Token)) :
    parseAdd (fuel + 1) toks =
    match parseMul fuel toks with
    | (some e, rest, ds) =>
      let r := chainAdd fuel e rest
      (some r.1, r.2.1, ds ++ r.2.2)
    | (none, rest, ds) => (none, rest, ds) := rfl

theorem parseAdd_nil (fuel : Nat) :
    (parseAdd fuel []).1 = none ∧ (parseAdd fuel []).2.1 = [] := by
  cases fuel with
  | zero => exact ⟨rfl, rfl⟩
  | succ f =>
    have h := parseMul_nil f
    rcases hp : parseMul f [] with ⟨o, rest, ds⟩
    rw [hp] at h
    obtain ⟨h1, h2⟩ := h
    cases o with
    | some e => simp at h1
    | none =>
      rw [parseAdd_succ, hp]
      exact ⟨rfl, h2⟩

theorem parseAdd_step {fuel : Nat} (ih : InvAll fuel) :
    ∀ toks, TokensOrdered toks → ExprOut toks (parseAdd (fuel + 1) toks) := by
  intro toks hord
  rw [parseAdd_succ]
  split
  · rename_i e rest ds heq
    have hprim := ih.2.2.1 toks hord
    rw [heq] at hprim
    obtain ⟨hpsuf, hpsome⟩ := hprim
    obtain ⟨hWFe, hsse, hloe, hhie, hBe⟩ := hpsome e rfl
    obtain ⟨hcsuf, hcstart, hcWF, hcss, hchead, hcB⟩ :=
      ih.2.2.2.1 rest e (tokensOrdered_suffix hord hpsuf) hWFe hsse hhie
    refine ⟨hcsuf.trans hpsuf, ?_⟩
    intro e2 he2
    injection he2 with hh
    subst hh
    refine ⟨hcWF, hcss, ?_, hchead, ?_⟩
    · intro t ht
      rw [hcstart]
      exact hloe t ht
    · intro B hB
      exact hcB B (fun t ht => hB t (hpsuf.subset ht)) (hBe B hB)
  · rename_i rest ds heq
    have hprim := ih.2.2.1 toks hord
    rw [heq] at hprim
    exact ⟨hprim.1, fun e2 he2 => by cases he2⟩

theorem parseStatement_succ (fuel : Nat) (toks : List (Located Token)) :
    parseStatement (fuel + 1) toks =
    match toks with
    | ⟨.Keyword "let", s0⟩ :: ⟨.Identifier n, _⟩ :: ⟨.Operator "=", _⟩ :: rest =>
      match parseAdd fuel rest with
      | (some e, rest2, ds) =>
        match rest2 with
        | ⟨.Punctuation ";", s3⟩ :: rest3 =>
          (some (.LetDecl n e ⟨s0.start, s3.stop⟩), rest3, ds)
        | other => (none, other, ds ++ [expectedDiag (headSpan other) "expected semicolon"])
      | (none, rest2, ds) => (none, rest2, ds)
    | _ =>
      match parseAdd fuel toks with
      | (some e, rest2, ds) =>
        match rest2 with
        | ⟨.Punctuation ";", s⟩ :: rest3 =>
          (some (.ExprStatement e ⟨e.span.start, s.stop⟩), rest3, ds)
        | other => (none, other, ds ++ [expectedDiag (headSpan other) "expected semicolon"])
      | (none, rest2, ds) => (none, rest2, ds) := rfl

theorem parseStatement_step {fuel : Nat} (ih : InvAll fuel) :
    ∀ toks, TokensOrdered toks → StOut toks (parseStatement (fuel + 1) toks) := by
  intro toks hord
  rw [parseStatement_succ]
  split
  · rename_i s0 n sA sB rest
    have h2 : TokensOrdered (⟨Token.Identifier n, sA⟩ :: ⟨Token.Operator "=", sB⟩ :: rest) :=
      tokensOrdered_suffix hord (List.suffix_cons _ _)
    have h3 : TokensOrdered (⟨Token.Operator "=", sB⟩ :: rest) :=
      tokensOrdered_suffix h2 (List.suffix_cons _ _)
    have hordr : TokensOrdered rest := tokensOrdered_suffix h3 (List.suffix_cons _ _)
    have hrsuf : rest.IsSuffix (⟨Token.Keyword "let", s0⟩ :: ⟨Token.Identifier n, sA⟩ ::
        ⟨Token.Operator "=", sB⟩ :: rest) :=
      (List.suffix_cons _ _).trans ((List.suffix_cons _ _).trans (List.suffix_cons _ _))
    have hs0 : s0.start ≤ s0.stop := hord.1 _ (List.mem_cons_self _ _)
    have h01 : s0.stop ≤ sA.start := ordered_head_rel hord rfl
    have hsA : sA.start ≤ sA.stop := h2.1 _ (List.mem_cons_self _ _)
    have h12 : sA.stop ≤ sB.start := ordered_head_rel h2 rfl
    have hsB : sB.start ≤ sB.stop := h3.1 _ (List.mem_cons_self _ _)
    have hadd := ih.2.2.2.2.1 rest hordr
    split
    · rename_i e rest2 ds heq
      rw [heq] at hadd
      obtain ⟨hpsuf, hpsome⟩ := hadd
      obtain ⟨hWFe, hsse, hlo, hhi, hBe⟩ := hpsome e rfl
      split
      · rename_i s3 rest3
        obtain ⟨t0, rest0, rfl⟩ : ∃ t0 rest0, rest = t0 :: rest0 := by
          cases rest with
          | nil =>
            have h1 := (parseAdd_nil fuel).1
            rw [heq] at h1
            cases h1
          | cons a b => exact ⟨a, b, rfl⟩
        have hB0 : sB.stop ≤ t0.span.start := ordered_head_rel h3 rfl
        have ht0e : t0.span.start ≤ e.span.start := hlo _ rfl
        have heS3 : e.span.stop ≤ s3.start := hhi _ rfl
        have hs3mem : (⟨Token.Punctuation ";", s3⟩ : Located Token) ∈ t0 :: rest0 :=
          hpsuf.subset (List.mem_cons_self _ _)
        have hs3ss : s3.start ≤ s3.stop := hordr.1 _ hs3mem
        refine ⟨((List.suffix_cons _ _).trans hpsuf).trans hrsuf, ?_⟩
        intro st hst
        injection hst with hh
        subst hh
        refine ⟨⟨⟨by show s0.start ≤ e.span.start; omega,
            by show e.span.stop ≤ s3.stop; omega⟩, hWFe⟩,
          by show s0.start ≤ s3.stop; omega, ?_, ?_, ?_⟩
        · intro t ht
          injection ht with hh2
          rw [← hh2]
          exact Nat.le_refl _
        · intro t1 ht1
          exact ordered_head_rel (tokensOrdered_suffix hordr hpsuf) ht1
        · intro B hB
          exact hB _ (hrsuf.subset hs3mem)
      · rename_i hother
        exact ⟨hpsuf.trans hrsuf, fun st hst => by cases hst⟩
    · rename_i rest2 ds heq
      rw [heq] at hadd
      exact ⟨hadd.1.trans hrsuf, fun st hst => by cases hst⟩
  · rename_i hnl
    have hadd := ih.2.2.2.2.1 toks hord
    split
    · rename_i e rest2 ds heq
      rw [heq] at hadd
      obtain ⟨hpsuf, hpsome⟩ := hadd
      obtain ⟨hWFe, hsse, hlo, hhi, hBe⟩ := hpsome e rfl
      split
      · rename_i s rest3
        have hsmem : (⟨Token.Punctuation ";", s⟩ : Located Token) ∈ toks :=
          hpsuf.subset (List.mem_cons_self _ _)
        have hsss : s.start ≤ s.stop := hord.1 _ hsmem
        have heS : e.span.stop ≤ s.start := hhi _ rfl
        refine ⟨(List.suffix_cons _ _).trans hpsuf, ?_⟩
        intro st hst
        injection hst with hh
        subst hh
        refine ⟨⟨⟨Nat.le_refl _, by show e.span.stop ≤ s.stop; omega⟩, hWFe⟩,
          by show e.span.start ≤ s.stop; omega, ?_, ?_, ?_⟩
        · intro t ht
          exact hlo t ht
        · intro t1 ht1
          exact ordered_head_rel (tokensOrdered_suffix hord hpsuf) ht1
        · intro B hB
          exact hB _ hsmem
      · rename_i hother
        exact ⟨hpsuf, fun st hst => by cases hst⟩
    · rename_i rest2 ds heq
      rw [heq] at hadd
      exact ⟨hadd.1, fun st hst => by cases hst⟩

theorem parseStatements_nil (fuel : Nat) : parseStatements fuel [] = ([], []) := by
  cases fuel with
  | zero => rfl
  | succ f => rfl

theorem skipToSemi_suffix (toks : List (Located Token)) :
    (skipToSemi toks).IsSuffix toks := by
  induction toks with
  | nil => exact List.suffix_refl _
  | cons t rest ih =>
    show (if isSemiTok t then rest
      else if isEoiTok t then t :: rest
      else skipToSemi rest).IsSuffix (t :: rest)
    split
    · exact List.suffix_cons _ _
    · split
      · exact List.suffix_refl _
      · exact ih.trans (List.suffix_cons _ _)

theorem parseStatements_succ (fuel : Nat) (toks : List (Located Token)) :
    parseStatements (fuel + 1) toks =
    match toks with
    | [] => ([], [])
    | ⟨.EndOfInput, _⟩ :: _ => ([], [])
    | _ =>
      match parseStatement fuel toks with
      | (some st, rest, ds) =>
        let r := parseStatements fuel rest
        (st :: r.1, ds ++ r.2)
      | (none, rest, ds) =>
        let r := parseStatements fuel (skipToSemi rest)
        (r.1, ds ++ r.2) := rfl

theorem parseStatements_step {fuel : Nat} (ih : InvAll fuel) :
    ∀ toks, TokensOrdered toks → StmtsOut toks (parseStatements (fuel + 1) toks) := by
  intro toks hord
  rw [parseStatements_succ]
  split
  · refine ⟨?_, ?_, ?_, ?_⟩
    · intro st hst
      cases hst
    · intro t0 ht0 st hst
      cases hst
    · intro B hB st hst
      cases hst
    · exact List.Pairwise.nil
  · refine ⟨?_, ?_, ?_, ?_⟩
    · intro st hst
      cases hst
    · intro t0 ht0 st hst
      cases hst
    · intro B hB st hst
      cases hst
    · exact List.Pairwise.nil
  · rename_i hn1 hn2
    have hstmt := ih.2.2.2.2.2.1 toks hord
    split
    · rename_i st rest ds heq
      rw [heq] at hstmt
      obtain ⟨hssuf, hssome⟩ := hstmt
      obtain ⟨hWFst, hssst, hlost, hheadst, hBst⟩ := hssome st rfl
      have hordr : TokensOrdered rest := tokensOrdered_suffix hord hssuf
      obtain ⟨hrecWF, hrecLo, hrecB, hrecP⟩ := ih.2.2.2.2.2.2 rest hordr
      refine ⟨?_, ?_, ?_, ?_⟩
      · intro st2 hst2
        rcases List.mem_cons.mp hst2 with rfl | hmem
        · exact ⟨hWFst, hssst⟩
        · exact hrecWF st2 hmem
      · intro t0 ht0 st2 hst2
        rcases List.mem_cons.mp hst2 with rfl | hmem
        · exact hlost t0 ht0
        · cases rest with
          | nil =>
            rw [parseStatements_nil fuel] at hmem
            cases hmem
          | cons a b =>
            have ha : a.span.start ≤ st2.span.start := hrecLo a rfl st2 hmem
            have h1 : t0.span.start ≤ a.span.start :=
              suffix_head_start hord hssuf ht0 rfl
            omega
      · intro B hB st2 hst2
        rcases List.mem_cons.mp hst2 with rfl | hmem
        · exact hBst B hB
        · exact hrecB B (fun t ht => hB t (hssuf.subset ht)) st2 hmem
      · refine List.Pairwise.cons ?_ hrecP
        intro st2 hst2
        cases rest with
        | nil =>
          rw [parseStatements_nil fuel] at hst2
          cases hst2
        | cons a b =>
          have ha : a.span.start ≤ st2.span.start := hrecLo a rfl st2 hst2
          have h1 : st.span.stop ≤ a.span.start := hheadst a rfl
          omega
    · rename_i rest ds heq
      rw [heq] at hstmt
      have hssuf := hstmt.1
      have hsksuf : (skipToSemi rest).IsSuffix toks := (skipToSemi_suffix rest).trans hssuf
      have hordk := tokensOrdered_suffix hord hsksuf
      obtain ⟨hrecWF, hrecLo, hrecB, hrecP⟩ := ih.2.2.2.2.2.2 (skipToSemi rest) hordk
      refine ⟨?_, ?_, ?_, ?_⟩
      · exact hrecWF
      · intro t0 ht0 st2 hst2
        cases hk : skipToSemi rest with
        | nil =>
          rw [hk, parseStatements_nil fuel] at hst2
          cases hst2
        | cons a b =>
          have ha : a.span.start ≤ st2.span.start :=
            hrecLo a (by rw [hk]; rfl) st2 hst2
          have hsk2 : (a :: b : List (Located Token)).IsSuffix toks := by
            rw [← hk]
            exact hsksuf
          have h1 : t0.span.start ≤ a.span.start :=
            suffix_head_start hord hsk2 ht0 rfl
          omega
      · intro B hB st2 hst2
        exact hrecB B (fun t ht => hB t (hsksuf.subset ht)) st2 hst2
      · exact hrecP

theorem invAll_succ {fuel : Nat} (ih : InvAll fuel) : InvAll (fuel + 1) :=
  ⟨primary_step ih, chainMul_step ih, parseMul_step ih, chainAdd_step ih,
    parseAdd_step ih, parseStatement_step ih, parseStatements_step ih⟩

theorem invAll (fuel : Nat) : InvAll fuel := by
  induction fuel with
  | zero => exact invAll_zero
  | succ f ih => exact invAll_succ ih

/-- C5: every parse tree the parser constructs is span-well-formed: the
root Program node's span contains every statement's span, the statements
are in source order and non-overlapping, and within every expression node
the children's spans are contained in the parent's span and appear in
source order without overlap. -/
theorem parse_tree_spans_wf (src : String) : ((parse src).tree).WF := by
  obtain ⟨hordT, hbndT⟩ := tokenize_ordered src
  obtain ⟨hWFs, hLo, hB, hP⟩ :=
    (invAll (4 * (tokenize src).tokens.length + 8)).2.2.2.2.2.2
      (tokenize src).tokens hordT
  refine ⟨?_, hP⟩
  intro st hst
  refine ⟨⟨Nat.zero_le _, ?_⟩, (hWFs st hst).1⟩
  exact hB src.length (fun t ht => hbndT t ht) st hst


/-! ## Extension lemmas: lexing a buffer with a clean prefix (claims C8, C9) -/

theorem munch_append_not {p : Char → Bool} {b : Char} (hb : p b = false)
    (a : List Char) (d : List Char) :
    munch p (a ++ b :: d) = ((munch p a).1, (munch p a).2 ++ b :: d) := by
  induction a with
  | nil => simp [munch, hb]
  | cons x xs ih =>
    simp only [List.cons_append, munch]
    split
    · simp only [List.append_eq]
      rw [ih]
    · rfl

theorem scanString_append {a : List Char} {r : List Char × List Char}
    (h : scanString a = some r) (x : List Char) :
    scanString (a ++ x) = some (r.1, r.2 ++ x) := by
  induction a generalizing r with
  | nil => simp [scanString] at h
  | cons c cs ih =>
    simp only [scanString] at h
    simp only [List.cons_append, scanString]
    split
    · rw [if_pos (by assumption)] at h
      injection h with hh
      rw [← hh]
      rfl
    · rw [if_neg (by assumption)] at h
      cases hr : scanString cs with
      | none => rw [hr] at h; cases h
      | some r2 =>
        rw [hr] at h
        injection h with hh
        simp only [List.append_eq]
        rw [ih hr, ← hh]
        rfl

theorem scanComment_append {a : List Char} {r : Nat × List Char}
    (h : scanComment a = some r) (x : List Char) :
    scanComment (a ++ x) = some (r.1, r.2 ++ x) := by
  induction a generalizing r with
  | nil => simp [scanComment] at h
  | cons c cs ih =>
    cases cs with
    | nil => simp [scanComment] at h
    | cons d ds =>
      simp only [scanComment] at h
      simp only [List.cons_append, scanComment]
      split
      · rw [if_pos (by assumption)] at h
        injection h with hh
        rw [← hh]
        rfl
      · rw [if_neg (by assumption)] at h
        cases hr : scanComment (d :: ds) with
        | none => rw [hr] at h; cases h
        | some r2 =>
          rw [hr] at h
          injection h with hh
          have hih := ih hr
          rw [show (d :: ds) ++ x = d :: (ds ++ x) from rfl] at hih
          simp only [List.append_eq]
          rw [hih, ← hh]
          rfl

theorem scanString_none {l : List Char} (h : ∀ x ∈ l, x ≠ '\"') :
    scanString l = none := by
  induction l with
  | nil => rfl
  | cons c cs ih =>
    simp only [scanString]
    rw [if_neg (h c (List.mem_cons_self _ _))]
    rw [ih (fun x hx => h x (List.mem_cons_of_mem _ hx))]
    rfl

theorem scanComment_none {l : List Char}
    (h : ¬ ∃ a b, l = a ++ '*' :: '/' :: b) :
    scanComment l = none := by
  induction l with
  | nil => rfl
  | cons c cs ih =>
    cases cs with
    | nil => rfl
    | cons d ds =>
      simp only [scanComment]
      have hcd : ¬ (c = '*' && d = '/') = true := by
        intro hcd
        simp at hcd
        exact h ⟨[], ds, by rw [hcd.1, hcd.2]; rfl⟩
      rw [if_neg hcd]
      have : ¬ ∃ a b, d :: ds = a ++ '*' :: '/' :: b := by
        intro ⟨a, b, hab⟩
        exact h ⟨c :: a, b, by rw [hab]; rfl⟩
      rw [ih this]
      rfl

/-- A character that cannot extend any token munch in progress: safe to
append after a cleanly lexed prefix. -/
def GoodBoundary (c : Char) : Prop :=
  isWhitespaceChar c = false ∧ isIdentChar c = false ∧ c.isDigit = false ∧
  c ≠ '=' ∧ c ≠ '*'

theorem lexStep_append {c : Char} {cs : List Char} {pos : Nat}
    {b : Char} {bs : List Char} (hgood : GoodBoundary b)
    (hnotdiag : ∀ d, (lexStep c cs pos).1 ≠ .diag d) :
    lexStep c (cs ++ b :: bs) pos =
      ((lexStep c cs pos).1, (lexStep c cs pos).2.1 ++ b :: bs,
        (lexStep c cs pos).2.2) := by
  obtain ⟨hg1, hg2, hg3, hg4, hg5⟩ := hgood
  by_cases h1 : isWhitespaceChar c = true
  · rw [lexStep_eq_ws cs pos h1, lexStep_eq_ws (cs ++ b :: bs) pos h1,
      munch_append_not hg1 cs bs]
  by_cases h2 : isIdentStart c = true
  · rw [lexStep_eq_ident cs pos h1 h2, lexStep_eq_ident (cs ++ b :: bs) pos h1 h2,
      munch_append_not hg2 cs bs]
  by_cases h3 : c.isDigit = true
  · rw [lexStep_eq_digit cs pos h1 h2 h3, lexStep_eq_digit (cs ++ b :: bs) pos h1 h2 h3,
      munch_append_not hg3 cs bs]
  by_cases h4 : c = '\"'
  · subst h4
    cases hsc : scanString cs with
    | none =>
      exact absurd (by rw [lexStep_eq_quote_none pos hsc]) (hnotdiag _)
    | some r =>
      rw [lexStep_eq_quote_some pos hsc,
        lexStep_eq_quote_some pos (scanString_append hsc (b :: bs))]
  by_cases h5 : c = '/'
  · subst h5
    cases cs with
    | nil =>
      rw [lexStep_eq_slash_op pos (fun cs2 h => by
          rw [List.nil_append] at h
          injection h with hx _
          exact hg5 hx),
        lexStep_eq_slash_op pos (fun cs2 h => by cases h)]
    | cons d ds =>
      by_cases hd : d = '*'
      · subst hd
        cases hsc : scanComment ds with
        | none =>
          exact absurd (by rw [lexStep_eq_comment_none pos hsc]) (hnotdiag _)
        | some r =>
          rw [lexStep_eq_comment_some pos hsc]
          rw [show ('*' :: ds) ++ b :: bs = '*' :: (ds ++ b :: bs) from rfl,
            lexStep_eq_comment_some pos (scanComment_append hsc (b :: bs))]
      · have hne : ∀ cs2, d :: ds ≠ '*' :: cs2 := by
          intro cs2 h
          injection h with hx _
          exact hd hx
        have hne2 : ∀ cs2, (d :: ds) ++ b :: bs ≠ '*' :: cs2 := by
          intro cs2 h
          rw [List.cons_append] at h
          injection h with hx _
          exact hd hx
        rw [lexStep_eq_slash_op pos hne, lexStep_eq_slash_op pos hne2]
  by_cases h6 : c = '>'
  · subst h6
    cases cs with
    | nil =>
      rw [lexStep_eq_gt_op pos (fun cs2 h => by
          rw [List.nil_append] at h
          injection h with hx _
          exact hg4 hx),
        lexStep_eq_gt_op pos (fun cs2 h => by cases h)]
    | cons d ds =>
      by_cases hd : d = '='
      · subst hd
        rw [lexStep_eq_gt_eq ds pos]
        rw [show ('=' :: ds) ++ b :: bs = '=' :: (ds ++ b :: bs) from rfl,
          lexStep_eq_gt_eq (ds ++ b :: bs) pos]
      · have hne : ∀ cs2, d :: ds ≠ '=' :: cs2 := by
          intro cs2 h
          injection h with hx _
          exact hd hx
        have hne2 : ∀ cs2, (d :: ds) ++ b :: bs ≠ '=' :: cs2 := by
          intro cs2 h
          rw [List.cons_append] at h
          injection h with hx _
          exact hd hx
        rw [lexStep_eq_gt_op pos hne, lexStep_eq_gt_op pos hne2]
  by_cases h7 : isSimpleOp c = true
  · rw [lexStep_eq_simpleOp cs pos h1 h2 h3 h4 h5 h6 h7,
      lexStep_eq_simpleOp (cs ++ b :: bs) pos h1 h2 h3 h4 h5 h6 h7]
  by_cases h8 : isPunctChar c = true
  · rw [lexStep_eq_punct cs pos h1 h2 h3 h4 h5 h6 h7 h8,
      lexStep_eq_punct (cs ++ b :: bs) pos h1 h2 h3 h4 h5 h6 h7 h8]
  · exact absurd (by rw [lexStep_eq_unexpected cs pos h1 h2 h3 h4 h5 h6 h7 h8])
      (hnotdiag _)

theorem itemsFrom_ne_nil (l : List Char) (pos : Nat) : itemsFrom l pos ≠ [] := by
  cases l with
  | nil => rw [itemsFrom_nil]; simp
  | cons c cs => rw [itemsFrom_cons]; simp

theorem dropLast_cons_ne {α : Type} {l : List α} (a : α) (h : l ≠ []) :
    (a :: l).dropLast = a :: l.dropLast := by
  cases l with
  | nil => exact absurd rfl h
  | cons x xs => rfl

theorem itemsFrom_append_aux :
    ∀ (n : Nat) (l : List Char), l.length ≤ n →
      ∀ (pos : Nat) (b : Char) (bs : List Char), GoodBoundary b →
      (∀ i ∈ itemsFrom l pos, ∀ d, i ≠ .diag d) →
      itemsFrom (l ++ b :: bs) pos =
        (itemsFrom l pos).dropLast ++ itemsFrom (b :: bs) (pos + l.length) := by
  intro n
  induction n with
  | zero =>
    intro l hl pos b bs hgood hclean
    have : l = [] := List.length_eq_zero.mp (Nat.le_zero.mp hl)
    subst this
    rw [List.nil_append, itemsFrom_nil]
    simp
  | succ n ihn =>
    intro l hl pos b bs hgood hclean
    cases l with
    | nil =>
      rw [List.nil_append, itemsFrom_nil]
      simp
    | cons c cs =>
      have hnd : ∀ d, (lexStep c cs pos).1 ≠ .diag d := by
        intro d hd
        refine hclean (lexStep c cs pos).1 ?_ d hd
        rw [itemsFrom_cons]
        exact List.mem_cons_self _ _
      have hcleanrest : ∀ i ∈ itemsFrom (lexStep c cs pos).2.1 (lexStep c cs pos).2.2,
          ∀ d, i ≠ .diag d := by
        intro i hi d hd
        refine hclean i ?_ d hd
        rw [itemsFrom_cons]
        exact List.mem_cons_of_mem _ hi
      have hrest := lexStep_rest_length c cs pos
      have hlen := (lexStep_spec c cs pos).2.2.1
      simp only [List.length_cons] at hl
      rw [show (c :: cs) ++ b :: bs = c :: (cs ++ b :: bs) from rfl, itemsFrom_cons,
        lexStep_append hgood hnd]
      show (lexStep c cs pos).1 ::
          itemsFrom ((lexStep c cs pos).2.1 ++ b :: bs) (lexStep c cs pos).2.2 = _
      rw [ihn (lexStep c cs pos).2.1 (by omega) _ b bs hgood hcleanrest]
      have harith : (lexStep c cs pos).2.2 + (lexStep c cs pos).2.1.length =
          pos + (c :: cs).length := by
        simp only [List.length_cons]
        omega
      rw [harith]
      have hrhs : (itemsFrom (c :: cs) pos).dropLast =
          (lexStep c cs pos).1 ::
            (itemsFrom (lexStep c cs pos).2.1 (lexStep c cs pos).2.2).dropLast := by
        rw [itemsFrom_cons, dropLast_cons_ne _ (itemsFrom_ne_nil _ _)]
      rw [hrhs, List.cons_append]

theorem itemsFrom_append (l : List Char) (pos : Nat) (b : Char) (bs : List Char)
    (hgood : GoodBoundary b)
    (hclean : ∀ i ∈ itemsFrom l pos, ∀ d, i ≠ .diag d) :
    itemsFrom (l ++ b :: bs) pos =
      (itemsFrom l pos).dropLast ++ itemsFrom (b :: bs) (pos + l.length) :=
  itemsFrom_append_aux l.length l (Nat.le_refl _) pos b bs hgood hclean

theorem clean_of_no_diags {items : List LexItem}
    (h : items.filterMap diagOf = []) : ∀ i ∈ items, ∀ d, i ≠ .diag d := by
  intro i hi d hd
  subst hd
  have hmem : d ∈ items.filterMap diagOf := List.mem_filterMap.mpr ⟨_, hi, rfl⟩
  rw [h] at hmem
  cases hmem

/-- The diagnostics of a lexing pass over a buffer, starting at `pos`. -/
theorem tokenize_diags_eq (src : String) :
    (tokenize src).diagnostics = (itemsFrom src.data 0).filterMap diagOf := rfl

theorem tokenize_tokens_eq (src : String) :
    (tokenize src).tokens = (itemsFrom src.data 0).filterMap tokOf := rfl

theorem clean_prefix_decomp (pre : String)
    (hpre : (tokenize pre).diagnostics = []) :
    ∃ body, itemsFrom pre.data 0 =
        body ++ [.tok .EndOfInput ⟨pre.length, pre.length⟩] ∧
      body.filterMap diagOf = [] ∧
      (itemsFrom pre.data 0).dropLast = body ∧
      (tokenize pre).tokens.dropLast = body.filterMap tokOf := by
  obtain ⟨_, body, hbody, _⟩ := itemsFrom_lexSpec pre.data 0
  rw [Nat.zero_add] at hbody
  refine ⟨body, hbody, ?_, ?_, ?_⟩
  · rw [tokenize_diags_eq, hbody, List.filterMap_append] at hpre
    simpa [diagOf] using hpre
  · rw [hbody]
    exact List.dropLast_concat ..
  · rw [tokenize_tokens_eq, hbody, List.filterMap_append]
    simp [tokOf]

/-- C8: for every buffer consisting of a cleanly lexed prefix followed by
an unterminated string literal (no closing quote before end of input) or an
unterminated block comment (no closing sequence before end of input),
lexing yields exactly one diagnostic, spanning from the literal's opening
position to end of input, and still terminates normally. -/
theorem unterminated_literal_single_diag (pre body : String)
    (hpre : (tokenize pre).diagnostics = []) :
    ((∀ x ∈ body.data, x ≠ '\"') →
      (tokenize (pre ++ "\"" ++ body)).diagnostics =
        [⟨⟨pre.length, (pre ++ "\"" ++ body).length⟩, .error,
          "unterminated string literal"⟩]) ∧
    ((¬ ∃ a b, body.data = a ++ '*' :: '/' :: b) →
      (tokenize (pre ++ "/*" ++ body)).diagnostics =
        [⟨⟨pre.length, (pre ++ "/*" ++ body).length⟩, .error,
          "unterminated comment"⟩]) := by
  obtain ⟨pbody, hbody, hpdiag, hpdrop, hptoks⟩ := clean_prefix_decomp pre hpre
  have hclean : ∀ i ∈ itemsFrom pre.data 0, ∀ d, i ≠ .diag d := by
    apply clean_of_no_diags
    rw [← tokenize_diags_eq]
    exact hpre
  constructor
  · intro hnq
    have hdata : (pre ++ "\"" ++ body).data = pre.data ++ '\"' :: body.data := by
      rw [String.data_append, String.data_append, List.append_assoc]
      rfl
    have hlen2 : pre.data.length + 1 + body.data.length = (pre ++ "\"" ++ body).length := by
      rw [String.length_append, String.length_append]
      rfl
    rw [tokenize_diags_eq, hdata,
      itemsFrom_append pre.data 0 '\"' body.data
        ⟨rfl, rfl, rfl, by decide, by decide⟩ hclean,
      Nat.zero_add, hpdrop]
    rw [itemsFrom_cons, lexStep_eq_quote_none _ (scanString_none hnq)]
    show (pbody ++ .diag ⟨⟨pre.data.length, pre.data.length + 1 + body.data.length⟩,
        .error, "unterminated string literal"⟩ ::
        itemsFrom [] (pre.data.length + 1 + body.data.length)).filterMap diagOf = _
    rw [itemsFrom_nil, List.filterMap_append, hpdiag, hlen2]
    simp [diagOf]
  · intro hnc
    have hdata : (pre ++ "/*" ++ body).data = pre.data ++ '/' :: '*' :: body.data := by
      rw [String.data_append, String.data_append, List.append_assoc]
      rfl
    have hlen2 : pre.data.length + 2 + body.data.length = (pre ++ "/*" ++ body).length := by
      rw [String.length_append, String.length_append]
      show pre.length + 2 + body.length = pre.length + 2 + body.length
      rfl
    rw [tokenize_diags_eq, hdata,
      itemsFrom_append pre.data 0 '/' ('*' :: body.data)
        ⟨rfl, rfl, rfl, by decide, by decide⟩ hclean,
      Nat.zero_add, hpdrop]
    rw [itemsFrom_cons, lexStep_eq_comment_none _ (scanComment_none hnc)]
    show (pbody ++ .diag ⟨⟨pre.data.length, pre.data.length + 2 + body.data.length⟩,
        .error, "unterminated comment"⟩ ::
        itemsFrom [] (pre.data.length + 2 + body.data.length)).filterMap diagOf = _
    rw [itemsFrom_nil, List.filterMap_append, hpdiag, hlen2]
    simp [diagOf]

/-- A character recognized by no lexical category. -/
def unrecognizedChar (c : Char) : Prop :=
  isWhitespaceChar c = false ∧ isIdentStart c = false ∧ c.isDigit = false ∧
  c ≠ '\"' ∧ c ≠ '/' ∧ c ≠ '>' ∧ isSimpleOp c = false ∧ isPunctChar c = false

theorem unrecognized_goodBoundary {c : Char} (hc : unrecognizedChar c) :
    GoodBoundary c := by
  obtain ⟨h1, h2, h3, h4, h5, h6, h7, h8⟩ := hc
  refine ⟨h1, ?_, h3, ?_, ?_⟩
  · rw [isIdentStart] at h2
    simp only [Bool.or_eq_false_iff] at h2
    rw [isIdentChar, Char.isAlphanum]
    simp [h2.1, h2.2, h3]
  · intro heq
    rw [heq] at h7
    simp [isSimpleOp] at h7
  · intro heq
    rw [heq] at h7
    simp [isSimpleOp] at h7

/-- C9: an unrecognized character after a cleanly lexed prefix yields one
"unexpected character" diagnostic spanning exactly that character; the
character is skipped and scanning resumes on the rest of the buffer, whose
tokens and diagnostics are all still produced. -/
theorem unexpected_char_skip_resume (pre suf : String) (c : Char)
    (hpre : (tokenize pre).diagnostics = []) (hc : unrecognizedChar c) :
    (tokenize (pre ++ String.mk [c] ++ suf)).diagnostics =
      ⟨⟨pre.length, pre.length + 1⟩, .error, "unexpected character"⟩ ::
        (itemsFrom suf.data (pre.length + 1)).filterMap diagOf ∧
    (tokenize (pre ++ String.mk [c] ++ suf)).tokens =
      (tokenize pre).tokens.dropLast ++
        (itemsFrom suf.data (pre.length + 1)).filterMap tokOf := by
  obtain ⟨pbody, hbody, hpdiag, hpdrop, hptoks⟩ := clean_prefix_decomp pre hpre
  have hclean : ∀ i ∈ itemsFrom pre.data 0, ∀ d, i ≠ .diag d := by
    apply clean_of_no_diags
    rw [← tokenize_diags_eq]
    exact hpre
  have hgb := unrecognized_goodBoundary hc
  obtain ⟨h1, h2, h3, h4, h5, h6, h7, h8⟩ := hc
  have hdata : (pre ++ String.mk [c] ++ suf).data = pre.data ++ c :: suf.data := by
    rw [String.data_append, String.data_append, List.append_assoc]
    rfl
  have hitems : itemsFrom (pre.data ++ c :: suf.data) 0 =
      pbody ++ .diag ⟨⟨pre.data.length, pre.data.length + 1⟩, .error,
        "unexpected character"⟩ :: itemsFrom suf.data (pre.data.length + 1) := by
    rw [itemsFrom_append pre.data 0 c suf.data hgb hclean,
      Nat.zero_add, hpdrop, itemsFrom_cons,
      lexStep_eq_unexpected suf.data pre.data.length
        (by simp [h1]) (by simp [h2]) (by simp [h3]) h4 h5 h6
        (by simp [h7]) (by simp [h8])]
  constructor
  · rw [tokenize_diags_eq, hdata, hitems, List.filterMap_append, hpdiag]
    simp [diagOf]
  · rw [tokenize_tokens_eq, hdata, hitems, List.filterMap_append, hptoks]
    simp [tokOf]

/-- Witness for C8 at a concrete prefix and unterminated string body. -/
theorem unterminated_literal_single_diag_witness :
    (tokenize "x = ").diagnostics = [] ∧
    (tokenize ("x = " ++ "\"" ++ "abc")).diagnostics =
      [⟨⟨4, 8⟩, .error, "unterminated string literal"⟩] := by
  have h := unterminated_literal_single_diag "x = " "abc" (by decide)
  refine ⟨by decide, ?_⟩
  rw [h.1 (by decide)]
  decide

/-- Witness for C9 at a concrete prefix, bad character and suffix. -/
theorem unexpected_char_skip_resume_witness :
    (tokenize "a ").diagnostics = [] ∧
    (tokenize ("a " ++ String.mk ['?'] ++ "b")).diagnostics =
      [⟨⟨2, 3⟩, .error, "unexpected character"⟩] ∧
    (tokenize ("a " ++ String.mk ['?'] ++ "b")).tokens =
      [⟨.Identifier "a", ⟨0, 1⟩⟩, ⟨.Identifier "b", ⟨3, 4⟩⟩,
        ⟨.EndOfInput, ⟨4, 4⟩⟩] := by
  have h := unexpected_char_skip_resume "a " "b" '?' (by decide)
    ⟨rfl, rfl, rfl, by decide, by decide, by decide, rfl, rfl⟩
  refine ⟨by decide, ?_, ?_⟩
  · rw [h.1]
    decide
  · rw [h.2]
    decide


/-! ## Reference grammar acceptance and parser completeness (claims C1, C7) -/

/-- Grammatical classes of expression-level token runs. -/
inductive RunKind where
  | primary
  | multail
  | addtail

/-- Modelled from the spec: the reference grammar of expressions over token
runs.  A primary run is a literal, an identifier, a string, or a
parenthesized expression; a multiplicative (additive) tail is a possibly
empty chain of `* /` (`+ -`) operators each followed by the next operand;
an expression run is a primary, then a multiplicative tail, then an
additive tail. -/
inductive Run : RunKind → List (Located Token) → Prop where
  | lit (v : Nat) (s : Span) : Run .primary [⟨.IntegerLiteral v, s⟩]
  | str (t : String) (s : Span) : Run .primary [⟨.StringLiteral t, s⟩]
  | ident (n : String) (s : Span) : Run .primary [⟨.Identifier n, s⟩]
  | paren {p m a : List (Located Token)} (s1 s2 : Span) :
      Run .primary p → Run .multail m → Run .addtail a →
      Run .primary (⟨.Punctuation "(", s1⟩ :: p ++ m ++ a ++ [⟨.Punctuation ")", s2⟩])
  | mnil : Run .multail []
  | mcons {op : String} {p m : List (Located Token)} (s : Span) :
      op = "*" ∨ op = "/" → Run .primary p → Run .multail m →
      Run .multail (⟨.Operator op, s⟩ :: p ++ m)
  | anil : Run .addtail []
  | acons {op : String} {p m a : List (Located Token)} (s : Span) :
      op = "+" ∨ op = "-" → Run .primary p → Run .multail m → Run .addtail a →
      Run .addtail (⟨.Operator op, s⟩ :: p ++ m ++ a)

/-- Modelled from the spec: statement runs of the reference grammar: an
expression statement or a `let` declaration, each closed by a
semicolon. -/
inductive StmtRun : List (Located Token) → Prop where
  | exprStmt {p m a : List (Located Token)} (s : Span) :
      Run .primary p → Run .multail m → Run .addtail a →
      StmtRun (p ++ m ++ a ++ [⟨.Punctuation ";", s⟩])
  | letStmt {p m a : List (Located Token)} (s0 sA sB s3 : Span) (n : String) :
      Run .primary p → Run .multail m → Run .addtail a →
      StmtRun (⟨.Keyword "let", s0⟩ :: ⟨.Identifier n, sA⟩ :: ⟨.Operator "=", sB⟩ ::
        p ++ m ++ a ++ [⟨.Punctuation ";", s3⟩])

/-- Modelled from the spec: program runs: a sequence of statement runs. -/
inductive ProgRun : List (Located Token) → Prop where
  | nil : ProgRun []
  | cons {r t : List (Located Token)} : StmtRun r → ProgRun t → ProgRun (r ++ t)

/-- Modelled from the spec: the reference grammar-acceptance set: buffers
that lex without diagnostics and whose token sequence, up to the
end-of-input marker, is a program run of the reference grammar. -/
def Accepts (src : String) : Prop :=
  (tokenize src).diagnostics = [] ∧
  ∃ body s, (tokenize src).tokens = body ++ [⟨.EndOfInput, s⟩] ∧ ProgRun body

def NotMulOpHead (toks : List (Located Token)) : Prop :=
  ∀ op s rest, toks = ⟨Token.Operator op, s⟩ :: rest → ¬(op = "*" ∨ op = "/")

def NotAddOpHead (toks : List (Located Token)) : Prop :=
  ∀ op s rest, toks = ⟨Token.Operator op, s⟩ :: rest → ¬(op = "+" ∨ op = "-")

theorem notOpHead_cons {t : Located Token} {rest : List (Located Token)}
    (h : ∀ op, t.node ≠ .Operator op) :
    NotMulOpHead (t :: rest) ∧ NotAddOpHead (t :: rest) := by
  constructor
  · intro op s r heq hop
    injection heq with h1 h2
    exact h op (by rw [h1])
  · intro op s r heq hop
    injection heq with h1 h2
    exact h op (by rw [h1])

theorem run_primary_length {p : List (Located Token)} (h : Run .primary p) :
    1 ≤ p.length := by
  cases h <;> simp

theorem run_primary_shape {p : List (Located Token)} (h : Run .primary p) :
    ∃ t pr, p = t :: pr ∧ (∀ k s, t ≠ ⟨Token.Keyword k, s⟩) ∧
      (∀ s, t ≠ ⟨Token.EndOfInput, s⟩) := by
  cases h with
  | lit v s =>
    exact ⟨_, _, rfl, fun k s2 h2 => by simp at h2, fun s2 h2 => by simp at h2⟩
  | str t s =>
    exact ⟨_, _, rfl, fun k s2 h2 => by simp at h2, fun s2 h2 => by simp at h2⟩
  | ident n s =>
    exact ⟨_, _, rfl, fun k s2 h2 => by simp at h2, fun s2 h2 => by simp at h2⟩
  | paren s1 s2 hp hm ha =>
    exact ⟨_, _, rfl, fun k s3 h3 => by simp at h3, fun s3 h3 => by simp at h3⟩

theorem addtail_follow {a rest : List (Located Token)} (h : Run .addtail a)
    (hr : NotMulOpHead rest) : NotMulOpHead (a ++ rest) := by
  cases h with
  | anil => simpa using hr
  | acons s hop hp hm ha =>
    intro op2 s2 r2 heq hop2
    rw [List.cons_append] at heq
    injection heq with h1 h2
    injection h1 with h3
    rcases hop with rfl | rfl <;> rcases hop2 with rfl | rfl <;> simp at h3

/-- What the parser must do on a run of each grammatical class: consume
exactly the run, produce a result, and emit no diagnostics, for any
sufficiently large fuel. -/
@[reducible] def RunGoal : RunKind → List (Located Token) → Prop
  | .primary, r => ∀ fuel rest, 4 * r.length + 1 ≤ fuel →
      ∃ e, parsePrimary fuel (r ++ rest) = (some e, rest, [])
  | .multail, r => ∀ fuel lhs rest, 4 * r.length + 1 ≤ fuel → NotMulOpHead rest →
      ∃ e, chainMul fuel lhs (r ++ rest) = (e, rest, [])
  | .addtail, r => ∀ fuel lhs rest, 4 * r.length + 1 ≤ fuel → NotMulOpHead rest →
      NotAddOpHead rest →
      ∃ e, chainAdd fuel lhs (r ++ rest) = (e, rest, [])

theorem chainMul_stop {toks : List (Located Token)} (lhs : Expression) (fuel : Nat)
    (h : NotMulOpHead toks) : chainMul (fuel + 1) lhs toks = (lhs, toks, []) := by
  rw [chainMul_succ]
  split
  · rename_i op s rest
    split
    · rename_i hop
      exact absurd (by simpa using hop) (h op s rest rfl)
    · rfl
  · rfl

theorem chainAdd_stop {toks : List (Located Token)} (lhs : Expression) (fuel : Nat)
    (h : NotAddOpHead toks) : chainAdd (fuel + 1) lhs toks = (lhs, toks, []) := by
  rw [chainAdd_succ]
  split
  · rename_i op s rest
    split
    · rename_i hop
      exact absurd (by simpa using hop) (h op s rest rfl)
    · rfl
  · rfl

theorem chainMul_op (fuel : Nat) (lhs : Expression) (op : String) (s : Span)
    (rest : List (Located Token)) :
    chainMul (fuel + 1) lhs (⟨.Operator op, s⟩ :: rest) =
    (if op = "*" || op = "/" then
      match parsePrimary fuel rest with
      | (some rhs, rest2, ds) =>
        let r := chainMul fuel (.Binary op lhs rhs ⟨lhs.span.start, rhs.span.stop⟩) rest2
        (r.1, r.2.1, ds ++ r.2.2)
      | (none, rest2, ds) => (lhs, rest2, ds)
    else (lhs, ⟨.Operator op, s⟩ :: rest, [])) := rfl

theorem chainAdd_op (fuel : Nat) (lhs : Expression) (op : String) (s : Span)
    (rest : List (Located Token)) :
    chainAdd (fuel + 1) lhs (⟨.Operator op, s⟩ :: rest) =
    (if op = "+" || op = "-" then
      match parseMul fuel rest with
      | (some rhs, rest2, ds) =>
        let r := chainAdd fuel (.Binary op lhs rhs ⟨lhs.span.start, rhs.span.stop⟩) rest2
        (r.1, r.2.1, ds ++ r.2.2)
      | (none, rest2, ds) => (lhs, rest2, ds)
    else (lhs, ⟨.Operator op, s⟩ :: rest, [])) := rfl

theorem parsePrimary_paren (fuel : Nat) (s1 : Span) (rest : List (Located Token)) :
    parsePrimary (fuel + 1) (⟨.Punctuation "(", s1⟩ :: rest) =
    (match parseAdd fuel rest with
     | (some e, rest2, ds) =>
       match rest2 with
       | ⟨.Punctuation ")", s2⟩ :: rest3 =>
         (some (.Group e ⟨s1.start, s2.stop⟩), rest3, ds)
       | other => (none, other, ds ++ [expectedDiag (headSpan other) "expected closing parenthesis"])
     | (none, rest2, ds) => (none, rest2, ds)) := rfl

theorem parseMul_of_goals {p m : List (Located Token)}
    (hp : Run .primary p)
    (gp : RunGoal .primary p) (gm : RunGoal .multail m) :
    ∀ fuel rest, 4 * (p.length + m.length) + 2 ≤ fuel → NotMulOpHead rest →
      ∃ e, parseMul fuel ((p ++ m) ++ rest) = (some e, rest, []) := by
  intro fuel rest hfuel hnm
  obtain ⟨f, rfl⟩ : ∃ f, fuel = f + 1 := ⟨fuel - 1, by omega⟩
  have h1 := run_primary_length hp
  obtain ⟨e1, he1⟩ := gp f (m ++ rest) (by omega)
  obtain ⟨e2, he2⟩ := gm f e1 rest (by omega) hnm
  refine ⟨e2, ?_⟩
  rw [parseMul_succ, List.append_assoc, he1]
  show (some (chainMul f e1 (m ++ rest)).1, (chainMul f e1 (m ++ rest)).2.1,
      [] ++ (chainMul f e1 (m ++ rest)).2.2) = (some e2, rest, [])
  rw [he2]
  rfl

theorem parseAdd_of_goals {p m a : List (Located Token)}
    (hp : Run .primary p) (ha : Run .addtail a)
    (gp : RunGoal .primary p) (gm : RunGoal .multail m) (ga : RunGoal .addtail a) :
    ∀ fuel rest, 4 * (p.length + m.length + a.length) + 3 ≤ fuel →
      NotMulOpHead rest → NotAddOpHead rest →
      ∃ e, parseAdd fuel ((p ++ m ++ a) ++ rest) = (some e, rest, []) := by
  intro fuel rest hfuel hnm hna
  obtain ⟨f, rfl⟩ : ∃ f, fuel = f + 1 := ⟨fuel - 1, by omega⟩
  have h1 := run_primary_length hp
  have hnm2 : NotMulOpHead (a ++ rest) := addtail_follow ha hnm
  obtain ⟨e1, he1⟩ := parseMul_of_goals hp gp gm f (a ++ rest) (by omega) hnm2
  obtain ⟨e2, he2⟩ := ga f e1 rest (by omega) hnm hna
  refine ⟨e2, ?_⟩
  have hassoc : ((p ++ m) ++ a) ++ rest = (p ++ m) ++ (a ++ rest) :=
    List.append_assoc _ _ _
  rw [parseAdd_succ, hassoc, he1]
  show (some (chainAdd f e1 (a ++ rest)).1, (chainAdd f e1 (a ++ rest)).2.1,
      [] ++ (chainAdd f e1 (a ++ rest)).2.2) = (some e2, rest, [])
  rw [he2]
  rfl

theorem run_complete {k : RunKind} {r : List (Located Token)} (h : Run k r) :
    RunGoal k r := by
  induction h with
  | lit v s =>
    intro fuel rest hfuel
    obtain ⟨f, rfl⟩ : ∃ f, fuel = f + 1 := ⟨fuel - 1, by omega⟩
    exact ⟨.Literal v s, rfl⟩
  | str t s =>
    intro fuel rest hfuel
    obtain ⟨f, rfl⟩ : ∃ f, fuel = f + 1 := ⟨fuel - 1, by omega⟩
    exact ⟨.StrLit t s, rfl⟩
  | ident n s =>
    intro fuel rest hfuel
    obtain ⟨f, rfl⟩ : ∃ f, fuel = f + 1 := ⟨fuel - 1, by omega⟩
    exact ⟨.Identifier n s, rfl⟩
  | @paren p m a s1 s2 hp hm ha ihp ihm iha =>
    intro fuel rest hfuel
    simp only [List.length_append, List.length_cons, List.length_nil] at hfuel
    obtain ⟨f, rfl⟩ : ∃ f, fuel = f + 1 := ⟨fuel - 1, by omega⟩
    have hcls := @notOpHead_cons ⟨Token.Punctuation ")", s2⟩ rest
      (fun opx hx => by simp at hx)
    obtain ⟨e1, he1⟩ := parseAdd_of_goals hp ha ihp ihm iha f
      (⟨Token.Punctuation ")", s2⟩ :: rest) (by omega) hcls.1 hcls.2
    refine ⟨.Group e1 ⟨s1.start, s2.stop⟩, ?_⟩
    have hsh : ((⟨Token.Punctuation "(", s1⟩ :: p) ++ m ++ a ++
        [⟨Token.Punctuation ")", s2⟩]) ++ rest =
        ⟨Token.Punctuation "(", s1⟩ ::
          ((p ++ m ++ a) ++ (⟨Token.Punctuation ")", s2⟩ :: rest)) := by
      simp
    rw [hsh, parsePrimary_paren, he1]
    rfl
  | mnil =>
    intro fuel lhs rest hfuel hnm
    obtain ⟨f, rfl⟩ : ∃ f, fuel = f + 1 := ⟨fuel - 1, by omega⟩
    exact ⟨lhs, by rw [List.nil_append]; exact chainMul_stop lhs f hnm⟩
  | @mcons op p m s hop hp hm ihp ihm =>
    intro fuel lhs rest hfuel hnm
    have hlen := run_primary_length hp
    simp only [List.length_append, List.length_cons] at hfuel
    obtain ⟨f, rfl⟩ : ∃ f, fuel = f + 1 := ⟨fuel - 1, by omega⟩
    obtain ⟨e1, he1⟩ := ihp f (m ++ rest) (by omega)
    obtain ⟨e2, he2⟩ := ihm f (.Binary op lhs e1 ⟨lhs.span.start, e1.span.stop⟩)
      rest (by omega) hnm
    refine ⟨e2, ?_⟩
    have hsh : ((⟨Token.Operator op, s⟩ :: p) ++ m) ++ rest =
        ⟨Token.Operator op, s⟩ :: (p ++ (m ++ rest)) := by simp
    rw [hsh, chainMul_op, if_pos (by rcases hop with rfl | rfl <;> simp), he1]
    show ((chainMul f (Expression.Binary op lhs e1 ⟨lhs.span.start, e1.span.stop⟩) (m ++ rest)).1,
        (chainMul f (Expression.Binary op lhs e1 ⟨lhs.span.start, e1.span.stop⟩) (m ++ rest)).2.1,
        [] ++ (chainMul f (Expression.Binary op lhs e1 ⟨lhs.span.start, e1.span.stop⟩) (m ++ rest)).2.2)
        = (e2, rest, [])
    rw [he2]
    rfl
  | anil =>
    intro fuel lhs rest hfuel hnm hna
    obtain ⟨f, rfl⟩ : ∃ f, fuel = f + 1 := ⟨fuel - 1, by omega⟩
    exact ⟨lhs, by rw [List.nil_append]; exact chainAdd_stop lhs f hna⟩
  | @acons op p m a s hop hp hm ha ihp ihm iha =>
    intro fuel lhs rest hfuel hnm hna
    have hlen := run_primary_length hp
    simp only [List.length_append, List.length_cons] at hfuel
    obtain ⟨f, rfl⟩ : ∃ f, fuel = f + 1 := ⟨fuel - 1, by omega⟩
    obtain ⟨e1, he1⟩ := parseMul_of_goals hp ihp ihm f (a ++ rest) (by omega)
      (addtail_follow ha hnm)
    obtain ⟨e2, he2⟩ := iha f (.Binary op lhs e1 ⟨lhs.span.start, e1.span.stop⟩)
      rest (by omega) hnm hna
    refine ⟨e2, ?_⟩
    have hsh : (((⟨Token.Operator op, s⟩ :: p) ++ m) ++ a) ++ rest =
        ⟨Token.Operator op, s⟩ :: ((p ++ m) ++ (a ++ rest)) := by simp
    rw [hsh, chainAdd_op, if_pos (by rcases hop with rfl | rfl <;> simp), he1]
    show ((chainAdd f (Expression.Binary op lhs e1 ⟨lhs.span.start, e1.span.stop⟩) (a ++ rest)).1,
        (chainAdd f (Expression.Binary op lhs e1 ⟨lhs.span.start, e1.span.stop⟩) (a ++ rest)).2.1,
        [] ++ (chainAdd f (Expression.Binary op lhs e1 ⟨lhs.span.start, e1.span.stop⟩) (a ++ rest)).2.2)
        = (e2, rest, [])
    rw [he2]
    rfl

theorem parseStatement_let (fuel : Nat) (s0 sA sB : Span) (n : String)
    (rest : List (Located Token)) :
    parseStatement (fuel + 1)
      (⟨.Keyword "let", s0⟩ :: ⟨.Identifier n, sA⟩ :: ⟨.Operator "=", sB⟩ :: rest) =
    (match parseAdd fuel rest with
     | (some e, rest2, ds) =>
       match rest2 with
       | ⟨.Punctuation ";", s3⟩ :: rest3 =>
         (some (.LetDecl n e ⟨s0.start, s3.stop⟩), rest3, ds)
       | other => (none, other, ds ++ [expectedDiag (headSpan other) "expected semicolon"])
     | (none, rest2, ds) => (none, rest2, ds)) := rfl

theorem parseStatement_expr_path (fuel : Nat) (toks : List (Located Token))
    (h : ∀ s0 n sA sB rest2, toks ≠
      ⟨Token.Keyword "let", s0⟩ :: ⟨Token.Identifier n, sA⟩ ::
        ⟨Token.Operator "=", sB⟩ :: rest2) :
    parseStatement (fuel + 1) toks =
    (match parseAdd fuel toks with
     | (some e, rest2, ds) =>
       match rest2 with
       | ⟨.Punctuation ";", s⟩ :: rest3 =>
         (some (.ExprStatement e ⟨e.span.start, s.stop⟩), rest3, ds)
       | other => (none, other, ds ++ [expectedDiag (headSpan other) "expected semicolon"])
     | (none, rest2, ds) => (none, rest2, ds)) := by
  rw [parseStatement_succ]
  split
  · rename_i s0 n sA sB rest2
    exact absurd rfl (h s0 n sA sB rest2)
  · rfl

theorem stmtRun_head {r : List (Located Token)} (h : StmtRun r) :
    ∃ t0 rr, r = t0 :: rr ∧ (∀ s, t0 ≠ ⟨Token.EndOfInput, s⟩) := by
  cases h with
  | @exprStmt p m a s hp hm ha =>
    obtain ⟨t0, pr, hpe, ht0k, ht0e⟩ := run_primary_shape hp
    refine ⟨t0, ((pr ++ m) ++ a) ++ [⟨Token.Punctuation ";", s⟩], ?_, ht0e⟩
    rw [hpe]
    simp
  | letStmt s0 sA sB s3 n hp hm ha =>
    exact ⟨_, _, rfl, fun s2 h2 => by simp at h2⟩

theorem stmtRun_complete {r : List (Located Token)} (h : StmtRun r) :
    ∀ fuel rest, 4 * r.length + 1 ≤ fuel →
      ∃ st, parseStatement fuel (r ++ rest) = (some st, rest, []) := by
  cases h with
  | @exprStmt p m a s hp hm ha =>
    intro fuel rest hfuel
    have hlen := run_primary_length hp
    simp only [List.length_append, List.length_cons, List.length_nil] at hfuel
    obtain ⟨f, rfl⟩ : ∃ f, fuel = f + 1 := ⟨fuel - 1, by omega⟩
    have hsemi := @notOpHead_cons ⟨Token.Punctuation ";", s⟩ rest
      (fun opx hx => by simp at hx)
    obtain ⟨e1, he1⟩ := parseAdd_of_goals hp ha (run_complete hp) (run_complete hm)
      (run_complete ha) f (⟨Token.Punctuation ";", s⟩ :: rest) (by omega) hsemi.1 hsemi.2
    obtain ⟨t0, pr, hpeq, ht0k, ht0e⟩ := run_primary_shape hp
    refine ⟨.ExprStatement e1 ⟨e1.span.start, s.stop⟩, ?_⟩
    have hsh : (((p ++ m) ++ a) ++ [⟨Token.Punctuation ";", s⟩]) ++ rest
        = (p ++ m ++ a) ++ (⟨Token.Punctuation ";", s⟩ :: rest) := by simp
    have hnl : ∀ s0 n sA sB rest2,
        (p ++ m ++ a) ++ (⟨Token.Punctuation ";", s⟩ :: rest) ≠
        ⟨Token.Keyword "let", s0⟩ :: ⟨Token.Identifier n, sA⟩ ::
          ⟨Token.Operator "=", sB⟩ :: rest2 := by
      intro s0 n sA sB rest2 heq
      rw [hpeq] at heq
      simp only [List.cons_append, List.append_assoc] at heq
      injection heq with h1 h2
      exact ht0k "let" s0 h1
    rw [hsh, parseStatement_expr_path f _ hnl, he1]
    rfl
  | @letStmt p m a s0 sA sB s3 n hp hm ha =>
    intro fuel rest hfuel
    have hlen := run_primary_length hp
    simp only [List.length_append, List.length_cons, List.length_nil] at hfuel
    obtain ⟨f, rfl⟩ : ∃ f, fuel = f + 1 := ⟨fuel - 1, by omega⟩
    have hsemi := @notOpHead_cons ⟨Token.Punctuation ";", s3⟩ rest
      (fun opx hx => by simp at hx)
    obtain ⟨e1, he1⟩ := parseAdd_of_goals hp ha (run_complete hp) (run_complete hm)
      (run_complete ha) f (⟨Token.Punctuation ";", s3⟩ :: rest) (by omega) hsemi.1 hsemi.2
    refine ⟨.LetDecl n e1 ⟨s0.start, s3.stop⟩, ?_⟩
    have hsh : ((⟨Token.Keyword "let", s0⟩ :: ⟨Token.Identifier n, sA⟩ ::
          ⟨Token.Operator "=", sB⟩ :: p ++ m ++ a ++ [⟨Token.Punctuation ";", s3⟩]) ++ rest)
        = ⟨Token.Keyword "let", s0⟩ :: ⟨Token.Identifier n, sA⟩ ::
          ⟨Token.Operator "=", sB⟩ ::
            ((p ++ m ++ a) ++ (⟨Token.Punctuation ";", s3⟩ :: rest)) := by simp
    rw [hsh, parseStatement_let, he1]
    rfl

theorem parseStatements_go (fuel : Nat) (toks : List (Located Token))
    (h1 : toks ≠ [])
    (h2 : ∀ s rest, toks ≠ ⟨Token.EndOfInput, s⟩ :: rest) :
    parseStatements (fuel + 1) toks =
    (match parseStatement fuel toks with
     | (some st, rest, ds) =>
       let r := parseStatements fuel rest
       (st :: r.1, ds ++ r.2)
     | (none, rest, ds) =>
       let r := parseStatements fuel (skipToSemi rest)
       (r.1, ds ++ r.2)) := by
  rw [parseStatements_succ]
  split
  · exact absurd rfl h1
  · rename_i s rest2
    exact absurd rfl (h2 s rest2)
  · rfl

theorem progRun_complete {body : List (Located Token)} (h : ProgRun body) :
    ∀ fuel s, 4 * body.length + 2 ≤ fuel →
      ∃ sts, parseStatements fuel (body ++ [⟨Token.EndOfInput, s⟩]) = (sts, []) := by
  induction h with
  | nil =>
    intro fuel s hfuel
    obtain ⟨f, rfl⟩ : ∃ f, fuel = f + 1 := ⟨fuel - 1, by omega⟩
    exact ⟨[], rfl⟩
  | @cons r t hr ht ih =>
    intro fuel s hfuel
    simp only [List.length_append] at hfuel
    obtain ⟨f, rfl⟩ : ∃ f, fuel = f + 1 := ⟨fuel - 1, by omega⟩
    obtain ⟨t0, rr, hre, ht0e⟩ := stmtRun_head hr
    have hrlen : 1 ≤ r.length := by rw [hre]; simp
    obtain ⟨st, hst⟩ := stmtRun_complete hr f (t ++ [⟨Token.EndOfInput, s⟩]) (by omega)
    obtain ⟨sts, hsts⟩ := ih f s (by omega)
    refine ⟨st :: sts, ?_⟩
    have hsh : (r ++ t) ++ [⟨Token.EndOfInput, s⟩] = r ++ (t ++ [⟨Token.EndOfInput, s⟩]) :=
      List.append_assoc _ _ _
    have hne : r ++ (t ++ [⟨Token.EndOfInput, s⟩]) ≠ [] := by
      rw [hre]; simp
    have hnee : ∀ s2 rest2, r ++ (t ++ [⟨Token.EndOfInput, s⟩]) ≠
        ⟨Token.EndOfInput, s2⟩ :: rest2 := by
      intro s2 rest2 heq
      rw [hre] at heq
      rw [List.cons_append] at heq
      injection heq with hh1 hh2
      exact ht0e s2 hh1
    rw [hsh, parseStatements_go f _ hne hnee, hst]
    show (st :: (parseStatements f (t ++ [⟨Token.EndOfInput, s⟩])).1,
        [] ++ (parseStatements f (t ++ [⟨Token.EndOfInput, s⟩])).2) = (st :: sts, [])
    rw [hsts]
    rfl

/-- C1: for every valid program — every source buffer in the reference
grammar-acceptance set — `parse` returns an empty diagnostic list and a
parse tree whose root span equals the span of the full buffer. -/
theorem valid_program_parse_clean (src : String) (h : Accepts src) :
    (parse src).diagnostics = [] ∧ (parse src).tree.span = ⟨0, src.length⟩ := by
  obtain ⟨hlex, body, s, htoks, hprog⟩ := h
  constructor
  · show (tokenize src).diagnostics ++
      (parseStatements (4 * (tokenize src).tokens.length + 8) (tokenize src).tokens).2 = []
    rw [hlex, htoks]
    obtain ⟨sts, hsts⟩ := progRun_complete hprog
      (4 * (body ++ [(⟨Token.EndOfInput, s⟩ : Located Token)]).length + 8) s
      (by simp only [List.length_append, List.length_cons, List.length_nil]; omega)
    rw [hsts]
    rfl
  · rfl

theorem valid_program_parse_clean_witness :
    Accepts "1 ;" ∧ (parse "1 ;").diagnostics = [] ∧
      (parse "1 ;").tree.span = ⟨0, 3⟩ := by
  have hacc : Accepts "1 ;" :=
    ⟨by decide, [⟨.IntegerLiteral 1, ⟨0, 1⟩⟩, ⟨.Punctuation ";", ⟨2, 3⟩⟩], ⟨3, 3⟩,
      by decide,
      ProgRun.cons (StmtRun.exprStmt ⟨2, 3⟩ (Run.lit 1 ⟨0, 1⟩) Run.mnil Run.anil)
        ProgRun.nil⟩
  exact ⟨hacc, valid_program_parse_clean "1 ;" hacc⟩

theorem parseStatements_eoi (f : Nat) (s : Span) :
    parseStatements (f + 1) [⟨Token.EndOfInput, s⟩] = ([], []) := rfl

theorem parseStatements_stmt_step {r : List (Located Token)} (hr : StmtRun r)
    (f : Nat) (X : List (Located Token)) (hf : 4 * r.length + 1 ≤ f) :
    ∃ st, parseStatements (f + 1) (r ++ X) =
      (st :: (parseStatements f X).1, (parseStatements f X).2) := by
  obtain ⟨t0, rr, hre, ht0e⟩ := stmtRun_head hr
  obtain ⟨st, hst⟩ := stmtRun_complete hr f X hf
  refine ⟨st, ?_⟩
  have hne : r ++ X ≠ [] := by rw [hre]; simp
  have hnee : ∀ s2 rest2, r ++ X ≠ ⟨Token.EndOfInput, s2⟩ :: rest2 := by
    intro s2 rest2 heq
    rw [hre, List.cons_append] at heq
    injection heq with hh1 hh2
    exact ht0e s2 hh1
  rw [parseStatements_go f _ hne hnee, hst]
  rfl

theorem badStmt_step (g : Nat) (op : String) (s sS : Span)
    (X : List (Located Token)) :
    parseStatements (g + 5) (⟨.Operator op, s⟩ :: ⟨.Punctuation ";", sS⟩ :: X) =
      ((parseStatements (g + 4) X).1,
        unexpectedDiag s :: (parseStatements (g + 4) X).2) := rfl

/-- C7: a buffer holding two independent syntax errors — two malformed
statements, each an operator token followed by a semicolon — separated by
a valid statement yields exactly two diagnostics, each at the span of its
offending token: parsing recovers at the statement boundary after the
first error and still detects the second. -/
theorem two_independent_errors_two_diags (src : String) (op1 op2 : String)
    (s1 sS1 s2 sS2 sE : Span) (mid : List (Located Token)) (hmid : StmtRun mid)
    (hlex : (tokenize src).diagnostics = [])
    (htoks : (tokenize src).tokens =
      ⟨.Operator op1, s1⟩ :: ⟨.Punctuation ";", sS1⟩ ::
        (mid ++ (⟨.Operator op2, s2⟩ :: ⟨.Punctuation ";", sS2⟩ ::
          [⟨.EndOfInput, sE⟩]))) :
    (parse src).diagnostics = [unexpectedDiag s1, unexpectedDiag s2] := by
  show (tokenize src).diagnostics ++
    (parseStatements (4 * (tokenize src).tokens.length + 8) (tokenize src).tokens).2
    = [unexpectedDiag s1, unexpectedDiag s2]
  rw [hlex, htoks]
  have e1 : parseStatements (4 * mid.length + 21 + 5)
      (⟨.Operator op2, s2⟩ :: ⟨.Punctuation ";", sS2⟩ :: [⟨.EndOfInput, sE⟩]) =
      ((parseStatements (4 * mid.length + 21 + 4) [⟨.EndOfInput, sE⟩]).1,
        unexpectedDiag s2 ::
          (parseStatements (4 * mid.length + 21 + 4) [⟨.EndOfInput, sE⟩]).2) :=
    badStmt_step _ op2 s2 sS2 _
  have e2 : parseStatements (4 * mid.length + 21 + 4)
      ([⟨.EndOfInput, sE⟩] : List (Located Token)) = ([], []) := by
    rw [show (4 * mid.length + 21 + 4 : Nat) = (4 * mid.length + 24) + 1 from by omega]
    exact parseStatements_eoi _ sE
  have e3 : parseStatements (4 * mid.length + 21 + 5)
      (⟨.Operator op2, s2⟩ :: ⟨.Punctuation ";", sS2⟩ :: [⟨.EndOfInput, sE⟩]) =
      ([], [unexpectedDiag s2]) := by
    rw [e1, e2]
  obtain ⟨st, hst⟩ := parseStatements_stmt_step hmid (4 * mid.length + 21 + 5)
    (⟨.Operator op2, s2⟩ :: ⟨.Punctuation ";", sS2⟩ :: [⟨.EndOfInput, sE⟩])
    (by omega)
  rw [e3] at hst
  have e5 := badStmt_step (4 * mid.length + 23) op1 s1 sS1
    (mid ++ (⟨.Operator op2, s2⟩ :: ⟨.Punctuation ";", sS2⟩ :: [⟨.EndOfInput, sE⟩]))
  rw [show (4 * mid.length + 23 + 4 : Nat) = (4 * mid.length + 21 + 5) + 1 from by omega,
    hst] at e5
  rw [show 4 * (⟨Token.Operator op1, s1⟩ :: ⟨Token.Punctuation ";", sS1⟩ ::
        (mid ++ (⟨Token.Operator op2, s2⟩ :: ⟨Token.Punctuation ";", sS2⟩ ::
          [⟨Token.EndOfInput, sE⟩]))).length + 8 = 4 * mid.length + 23 + 5 from by
      simp only [List.length_cons, List.length_append, List.length_nil]
      omega,
    e5]
  rfl

theorem two_independent_errors_two_diags_witness :
    (parse "* ; 1 ; * ;").diagnostics =
      [unexpectedDiag ⟨0, 1⟩, unexpectedDiag ⟨8, 9⟩] :=
  two_independent_errors_two_diags "* ; 1 ; * ;" "*" "*" ⟨0, 1⟩ ⟨2, 3⟩ ⟨8, 9⟩
    ⟨10, 11⟩ ⟨11, 11⟩
    [⟨.IntegerLiteral 1, ⟨4, 5⟩⟩, ⟨.Punctuation ";", ⟨6, 7⟩⟩]
    (StmtRun.exprStmt ⟨6, 7⟩ (Run.lit 1 ⟨4, 5⟩) Run.mnil Run.anil)
    (by decide) (by decide)

end Charj
